import Mathlib

/-!
Verification of the DeliveryCepat route-optimization core.

This file gives a shallow embedding of the repository's algorithmic core and
proves (or refutes) the specified properties about it:

* `src/algorithms/dijkstra.py` — `dijkstra`
* `src/algorithms/astar.py` — `astar`
* `src/features/dynamic_speed.py` — `apply_dynamic_speed`
* `src/app.py` — `assign_orders` (the second, tracking definition, lines
  255-283, which shadows the earlier draft), and the per-vehicle route
  chaining loop of `main` (lines 394-418)

Conventions of the embedding:

* Python numbers (floats) are modelled as rationals `ℚ`.
* A `networkx.DiGraph`-style adjacency mapping is a finite association list
  `Node × List (Node × ℚ)`; `graph[node]` is `Graph.adjOf`, which yields `[]`
  for absent nodes (a node with no outgoing edges).  The dictionary access
  `graph[node][neighbor].get("weight", 1)` is `Graph.edgeWeight`: adjacency
  entries store the effective weight (an edge whose attribute dictionary has
  no "weight" key is stored with weight 1, matching the `.get` default).
* `heapq` holds tuples ordered lexicographically, exactly as Python compares
  tuples `(cost, node, path)` resp. `(f, cost, node, path)` where `path` is a
  list of `int` node ids compared lexicographically.  A heap pop returns a
  minimal element of the multiset of queued tuples; the lexicographic order
  on tuples is total, so the popped value is the unique minimal value.  This
  is modelled by `popMin`, which removes one occurrence of the minimal value.
* The Python `while queue:` loop terminates because each iteration pops one
  entry and entries are pushed only when a node is settled for the first
  time.  The loop is embedded with an explicit fuel argument
  (`dijkstraFuel` / `astarFuel`), a bound proved large enough that the
  out-of-fuel branch (`none`) is unreachable: the master theorems
  (`dijkstraLoop_weak`, `dijkstraLoop_strong`, `astarLoop_weak`,
  `astarLoop_strong`) exhibit a `some` result under the potential bound
  `dPotential < fuel`, which the initial states satisfy.
-/

/-! ## Graph model -/

abbrev Node := ℕ

/-- A weighted directed graph: the adjacency dictionary of a
`networkx.DiGraph` as an association list.  `adj` maps a node to its
outgoing `(neighbor, weight)` pairs. -/
structure Graph where
  adj : List (Node × List (Node × ℚ))
deriving DecidableEq

/-- The adjacency list of `n`: Python `graph[node]`, the `(neighbor, edge
attributes)` items.  An absent node has no outgoing edges. -/
def Graph.adjOf (g : Graph) (n : Node) : List (Node × ℚ) :=
  ((g.adj.find? fun p => p.1 == n).map Prod.snd).getD []

/-- All nodes that occur as a target of some edge. -/
def Graph.targets (g : Graph) : Finset Node :=
  (g.adj.map fun p => p.2.map Prod.fst).flatten.toFinset

/-- Python `graph[node][neighbor].get("weight", 1)`: the stored weight of the
edge `u → v`, with the `.get` default of 1. -/
def Graph.edgeWeight (g : Graph) (u v : Node) : ℚ :=
  (((g.adjOf u).find? fun p => p.1 == v).map Prod.snd).getD 1

/-- The edge `u → v` exists: `v` is a key of the dictionary `graph[u]`. -/
def Graph.HasEdge (g : Graph) (u v : Node) : Prop :=
  ∃ q ∈ g.adjOf u, q.1 = v

instance (g : Graph) (u v : Node) : Decidable (g.HasEdge u v) :=
  inferInstanceAs (Decidable (∃ q ∈ g.adjOf u, q.1 = v))

/-- Well-formedness inherited from Python dictionaries: the neighbor keys of
each adjacency dictionary are distinct. -/
def Graph.WF (g : Graph) : Prop :=
  ∀ n, ((g.adjOf n).map Prod.fst).Nodup

/-- All stored edge weights are non-negative. -/
def Graph.Nonneg (g : Graph) : Prop :=
  ∀ p ∈ g.adj, ∀ q ∈ p.2, 0 ≤ q.2

/-! ## Walks -/

/-- A walk from `a` to `b`: a non-empty node sequence starting at `a`, ending
at `b`, each consecutive pair joined by an existing edge. -/
def IsWalkFrom (g : Graph) (a b : Node) (p : List Node) : Prop :=
  p.head? = some a ∧ p.getLast? = some b ∧ p.Chain' g.HasEdge

/-- Total weight of a node sequence: the sum of the edge weights of its
consecutive pairs. -/
def walkWeight (g : Graph) (p : List Node) : ℚ :=
  ((p.zip p.tail).map fun q => g.edgeWeight q.1 q.2).sum

/-- There is some walk from `a` to `b`. -/
def Reachable (g : Graph) (a b : Node) : Prop :=
  ∃ p, IsWalkFrom g a b p

theorem isWalkFrom_singleton (g : Graph) (a : Node) : IsWalkFrom g a a [a] := by
  refine ⟨rfl, rfl, by simp⟩

theorem reachable_self (g : Graph) (a : Node) : Reachable g a a :=
  ⟨[a], isWalkFrom_singleton g a⟩

theorem walkWeight_nil (g : Graph) : walkWeight g [] = 0 := rfl

theorem walkWeight_singleton (g : Graph) (a : Node) : walkWeight g [a] = 0 := rfl

theorem walkWeight_cons_cons (g : Graph) (a b : Node) (p : List Node) :
    walkWeight g (a :: b :: p) = g.edgeWeight a b + walkWeight g (b :: p) := by
  simp [walkWeight]

/-! ### Basic lemmas about the graph model -/

theorem Graph.adjOf_cases (g : Graph) (n : Node) :
    g.adjOf n = [] ∨ ∃ p ∈ g.adj, p.1 = n ∧ g.adjOf n = p.2 := by
  unfold Graph.adjOf
  cases h : g.adj.find? fun p => p.1 == n with
  | none => exact Or.inl rfl
  | some p =>
    right
    refine ⟨p, List.mem_of_find?_eq_some h, ?_, rfl⟩
    have := List.find?_some h
    simpa using this

theorem Graph.mem_targets_of_mem_adjOf (g : Graph) {n : Node} {q : Node × ℚ}
    (hq : q ∈ g.adjOf n) : q.1 ∈ g.targets := by
  rcases g.adjOf_cases n with h | ⟨p, hp, -, h⟩
  · rw [h] at hq; cases hq
  · rw [h] at hq
    unfold Graph.targets
    rw [List.mem_toFinset, List.mem_flatten]
    exact ⟨p.2.map Prod.fst, List.mem_map_of_mem _ hp, List.mem_map_of_mem _ hq⟩

theorem Graph.nonneg_adjOf {g : Graph} (hg : g.Nonneg) {n : Node} {q : Node × ℚ}
    (hq : q ∈ g.adjOf n) : 0 ≤ q.2 := by
  rcases g.adjOf_cases n with h | ⟨p, hp, -, h⟩
  · rw [h] at hq; cases hq
  · rw [h] at hq; exact hg p hp q hq

theorem Graph.edgeWeight_nonneg {g : Graph} (hg : g.Nonneg) (u v : Node) :
    0 ≤ g.edgeWeight u v := by
  unfold Graph.edgeWeight
  cases h : (g.adjOf u).find? fun p => p.1 == v with
  | none => norm_num
  | some q =>
    have hmem := List.mem_of_find?_eq_some h
    simpa using g.nonneg_adjOf hg hmem

theorem Graph.edgeWeight_of_mem {g : Graph} (hwf : g.WF) {u : Node} {q : Node × ℚ}
    (hq : q ∈ g.adjOf u) : g.edgeWeight u q.1 = q.2 := by
  unfold Graph.edgeWeight
  cases h : (g.adjOf u).find? fun p => p.1 == q.1 with
  | none =>
    exfalso
    have := List.find?_eq_none.mp (by exact h) q hq
    simp at this
  | some r =>
    have hr := List.mem_of_find?_eq_some h
    have hr1 : r.1 = q.1 := by have := List.find?_some h; simpa using this
    have : r = q := by
      have hnd := hwf u
      have h1 : q.1 ∈ (g.adjOf u).map Prod.fst := List.mem_map_of_mem _ hq
      have hinj := List.inj_on_of_nodup_map hnd
      exact hinj (by exact hr) (by exact hq) (by rw [hr1])
    simp [this]

/-! ### Walk construction and inversion -/

theorem isWalkFrom_snoc {g : Graph} {a b c : Node} {p : List Node}
    (hw : IsWalkFrom g a b p) (he : g.HasEdge b c) : IsWalkFrom g a c (p ++ [c]) := by
  obtain ⟨h1, h2, h3⟩ := hw
  refine ⟨?_, ?_, ?_⟩
  · cases p with
    | nil => cases h1
    | cons x xs => simpa using h1
  · simp
  · rw [List.chain'_append]
    refine ⟨h3, by simp, ?_⟩
    intro x hx y hy
    simp only [List.head?_cons, Option.mem_def, Option.some.injEq] at hy
    subst hy
    rw [h2] at hx
    simp only [Option.mem_def, Option.some.injEq] at hx
    subst hx
    exact he

theorem isWalkFrom_snoc_inv {g : Graph} {a c : Node} {p : List Node}
    (hw : IsWalkFrom g a c (p ++ [c'])) :
    c = c' ∧ (p = [] → a = c') ∧
      (p ≠ [] → ∃ b, IsWalkFrom g a b p ∧ g.HasEdge b c') := by
  obtain ⟨h1, h2, h3⟩ := hw
  have hc : c = c' := by
    rw [List.getLast?_concat] at h2
    exact (Option.some.injEq _ _ ▸ h2.symm)
  refine ⟨hc, ?_, ?_⟩
  · intro hp
    subst hp
    have : c' = a := by simpa using h1
    exact this.symm
  · intro hp
    rw [List.chain'_append] at h3
    obtain ⟨h3a, -, h3c⟩ := h3
    obtain ⟨b, hb⟩ : ∃ b, p.getLast? = some b :=
      ⟨p.getLast hp, List.getLast?_eq_getLast p hp⟩
    refine ⟨b, ⟨?_, hb, h3a⟩, ?_⟩
    · cases p with
      | nil => exact absurd rfl hp
      | cons x xs => simpa using h1
    · exact h3c b hb c' (by simp)

theorem walkWeight_snoc {g : Graph} {b : Node} (c : Node) {p : List Node}
    (hb : p.getLast? = some b) :
    walkWeight g (p ++ [c]) = walkWeight g p + g.edgeWeight b c := by
  induction p with
  | nil => cases hb
  | cons x xs ih =>
    cases xs with
    | nil =>
      simp only [List.getLast?_singleton, Option.some.injEq] at hb
      subst hb
      simp [walkWeight]
    | cons y ys =>
      have hb' : (y :: ys).getLast? = some b := by
        rw [List.getLast?_cons_cons] at hb
        exact hb
      have := ih hb'
      simp only [List.cons_append] at *
      rw [walkWeight_cons_cons, walkWeight_cons_cons, this, add_assoc]

theorem walkWeight_nonneg {g : Graph} (hg : g.Nonneg) (p : List Node) :
    0 ≤ walkWeight g p := by
  unfold walkWeight
  apply List.sum_nonneg
  intro x hx
  simp only [List.mem_map] at hx
  obtain ⟨q, -, rfl⟩ := hx
  exact g.edgeWeight_nonneg hg _ _

theorem isWalkFrom_cons_cons_inv {g : Graph} {a b x y : Node} {p : List Node}
    (hw : IsWalkFrom g a b (x :: y :: p)) :
    x = a ∧ g.HasEdge x y ∧ IsWalkFrom g y b (y :: p) := by
  obtain ⟨h1, h2, h3⟩ := hw
  rw [List.chain'_cons] at h3
  refine ⟨by simpa using h1, h3.1, rfl, ?_, h3.2⟩
  rw [List.getLast?_cons_cons] at h2
  exact h2

/-! ## The heap (`heapq` of tuples) -/

/-- Python comparison of lists of ints, lexicographic with shorter prefixes
smaller. -/
def listLt : List ℕ → List ℕ → Bool
  | [], [] => false
  | [], _ :: _ => true
  | _ :: _, [] => false
  | a :: as, b :: bs => a < b || (a == b && listLt as bs)

theorem listLt_irrefl : ∀ l, listLt l l = false := by
  intro l
  induction l with
  | nil => rfl
  | cons x xs ih => simp [listLt, ih]

theorem listLt_trans : ∀ l1 l2 l3, listLt l1 l2 → listLt l2 l3 → listLt l1 l3 := by
  intro l1
  induction l1 with
  | nil =>
    intro l2 l3 h12 h23
    cases l2 with
    | nil => cases l3 <;> simp_all [listLt]
    | cons y ys =>
      cases l3 with
      | nil => simp [listLt] at h23
      | cons z zs => simp [listLt]
  | cons x xs ih =>
    intro l2 l3 h12 h23
    cases l2 with
    | nil => simp [listLt] at h12
    | cons y ys =>
      cases l3 with
      | nil => simp [listLt] at h23
      | cons z zs =>
        simp only [listLt, Bool.or_eq_true, Bool.and_eq_true, beq_iff_eq,
          decide_eq_true_eq] at h12 h23 ⊢
        rcases h12 with h12 | ⟨h12e, h12l⟩
        · rcases h23 with h23 | ⟨h23e, h23l⟩
          · exact Or.inl (h12.trans h23)
          · exact Or.inl (h23e ▸ h12)
        · rcases h23 with h23 | ⟨h23e, h23l⟩
          · exact Or.inl (h12e ▸ h23)
          · exact Or.inr ⟨h12e.trans h23e, ih ys zs h12l h23l⟩

theorem listLt_total : ∀ l1 l2, listLt l1 l2 = false → listLt l2 l1 = false → l1 = l2 := by
  intro l1
  induction l1 with
  | nil =>
    intro l2 h12 h21
    cases l2 with
    | nil => rfl
    | cons y ys => simp [listLt] at h12
  | cons x xs ih =>
    intro l2 h12 h21
    cases l2 with
    | nil => simp [listLt] at h21
    | cons y ys =>
      simp only [listLt, Bool.or_eq_false_iff, Bool.and_eq_false_iff,
        decide_eq_false_iff_not, beq_eq_false_iff_ne, ne_eq, Bool.not_eq_true] at h12 h21
      obtain ⟨hxy, h12r⟩ := h12
      obtain ⟨hyx, h21r⟩ := h21
      have hx : x = y := le_antisymm (not_lt.mp hyx) (not_lt.mp hxy)
      subst hx
      rcases h12r with h | h12l
      · exact absurd rfl h
      · rcases h21r with h | h21l
        · exact absurd rfl h
        · rw [ih ys h12l h21l]

/-- The minimum of a list under a strict comparison `lt` (some minimal
element; with a total `lt` the minimal value is unique). -/
def findMin (lt : α → α → Bool) : List α → Option α
  | [] => none
  | x :: xs =>
    match findMin lt xs with
    | none => some x
    | some m => if lt m x then some m else some x

/-- A `heapq` pop on the multiset of queued tuples: remove and return one
occurrence of the minimal value. -/
def popMin [BEq α] (lt : α → α → Bool) (l : List α) : Option (α × List α) :=
  (findMin lt l).map fun m => (m, l.erase m)

theorem findMin_eq_none {lt : α → α → Bool} {l : List α} :
    findMin lt l = none ↔ l = [] := by
  cases l with
  | nil => simp [findMin]
  | cons x xs =>
    simp only [findMin]
    cases findMin lt xs with
    | none => simp
    | some m =>
      constructor
      · intro h
        by_cases hlt : lt m x <;> simp [hlt] at h
      · intro h; cases h

theorem findMin_mem {lt : α → α → Bool} {l : List α} {m : α}
    (h : findMin lt l = some m) : m ∈ l := by
  induction l with
  | nil => cases h
  | cons x xs ih =>
    rw [findMin] at h
    cases hxs : findMin lt xs with
    | none =>
      rw [hxs] at h
      have : x = m := by simpa using h
      exact this ▸ List.mem_cons_self x xs
    | some m' =>
      rw [hxs] at h
      have h2 : (if lt m' x = true then some m' else some x) = some m := h
      by_cases hlt : lt m' x = true
      · rw [if_pos hlt] at h2
        have hm : m' = m := by simpa using h2
        subst hm
        exact List.mem_cons_of_mem x (ih hxs)
      · rw [if_neg hlt] at h2
        have : x = m := by simpa using h2
        exact this ▸ List.mem_cons_self x xs

theorem findMin_min {lt : α → α → Bool}
    (hirr : ∀ a, lt a a = false)
    (htrans : ∀ a b c, lt a b → lt b c → lt a c)
    (htot : ∀ a b, lt a b = false → lt b a = false → a = b) :
    ∀ {l : List α} {m : α}, findMin lt l = some m → ∀ x ∈ l, lt x m = false := by
  intro l
  induction l with
  | nil => intro m h; cases h
  | cons x xs ih =>
    intro m h y hy
    rw [findMin] at h
    cases hxs : findMin lt xs with
    | none =>
      rw [hxs] at h
      have hxm : x = m := by simpa using h
      rw [findMin_eq_none.mp hxs] at hy
      simp only [List.mem_singleton] at hy
      subst hy
      rw [← hxm]
      exact hirr y
    | some m' =>
      rw [hxs] at h
      have hif : (if lt m' x = true then some m' else some x) = some m := h
      by_cases hlt : lt m' x = true
      · rw [if_pos hlt] at hif
        have hm : m' = m := by simpa using hif
        subst hm
        rcases List.mem_cons.mp hy with rfl | hy'
        · by_contra hxm
          have hxm' : lt y m' = true := by simpa using hxm
          have := htrans m' y m' hlt hxm'
          rw [hirr m'] at this
          cases this
        · exact ih hxs y hy'
      · rw [if_neg hlt] at hif
        have hm : x = m := by simpa using hif
        rw [← hm]
        rcases List.mem_cons.mp hy with rfl | hy'
        · exact hirr y
        · have h1 : lt y m' = false := ih hxs y hy'
          by_contra hym
          have hym' : lt y x = true := by simpa using hym
          by_cases hyeq : y = m'
          · subst hyeq
            exact hlt hym'
          · have h2 : lt m' y = true := by
              by_contra hc
              exact hyeq (htot y m' h1 (by simpa using hc))
            exact hlt (htrans m' y x h2 hym')

theorem popMin_eq_none [BEq α] {lt : α → α → Bool} {l : List α} :
    popMin lt l = none ↔ l = [] := by
  unfold popMin
  cases h : findMin lt l with
  | none => simp [findMin_eq_none.mp h]
  | some m =>
    constructor
    · intro hc; simp at hc
    · intro hl; subst hl; cases h

theorem popMin_some [BEq α] {lt : α → α → Bool} {l : List α} {m : α} {rest : List α}
    (h : popMin lt l = some (m, rest)) :
    findMin lt l = some m ∧ rest = l.erase m := by
  unfold popMin at h
  cases hf : findMin lt l with
  | none => rw [hf] at h; cases h
  | some m' =>
    rw [hf] at h
    simp only [Option.map_some', Option.some.injEq, Prod.mk.injEq] at h
    obtain ⟨h1, h2⟩ := h
    subst h1
    exact ⟨rfl, h2.symm⟩

theorem popMin_mem [BEq α] {lt : α → α → Bool} {l : List α} {m : α} {rest : List α}
    (h : popMin lt l = some (m, rest)) : m ∈ l :=
  findMin_mem (popMin_some h).1

theorem popMin_rest_subset [BEq α] [LawfulBEq α] {lt : α → α → Bool} {l : List α}
    {m : α} {rest : List α} (h : popMin lt l = some (m, rest)) : rest ⊆ l := by
  rw [(popMin_some h).2]
  exact List.erase_subset _ _

theorem popMin_mem_rest [BEq α] [LawfulBEq α] {lt : α → α → Bool} {l : List α}
    {m : α} {rest : List α} (h : popMin lt l = some (m, rest))
    {x : α} (hx : x ∈ l) (hne : x ≠ m) : x ∈ rest := by
  rw [(popMin_some h).2]
  exact (List.mem_erase_of_ne hne).mpr hx

theorem popMin_length [BEq α] [LawfulBEq α] {lt : α → α → Bool} {l : List α}
    {m : α} {rest : List α} (h : popMin lt l = some (m, rest)) :
    rest.length = l.length - 1 := by
  rw [(popMin_some h).2]
  exact List.length_erase_of_mem (popMin_mem h)

/-! ### Lexicographic tuple comparison (Python tuple `<`) -/

/-- Lexicographic comparison of pairs from comparisons of the components:
Python's tuple comparison, one step. -/
def pairLt [BEq α] (la : α → α → Bool) (lb : β → β → Bool) (x y : α × β) : Bool :=
  la x.1 y.1 || (x.1 == y.1 && lb x.2 y.2)

theorem pairLt_irrefl [BEq α] [LawfulBEq α] {la : α → α → Bool} {lb : β → β → Bool}
    (ha : ∀ a, la a a = false) (hb : ∀ b, lb b b = false) :
    ∀ x, pairLt la lb x x = false := by
  intro x
  simp [pairLt, ha, hb]

theorem pairLt_trans [BEq α] [LawfulBEq α] {la : α → α → Bool} {lb : β → β → Bool}
    (ha : ∀ a b c, la a b → la b c → la a c)
    (hb : ∀ a b c, lb a b → lb b c → lb a c) :
    ∀ x y z, pairLt la lb x y → pairLt la lb y z → pairLt la lb x z := by
  intro x y z hxy hyz
  simp only [pairLt, Bool.or_eq_true, Bool.and_eq_true, beq_iff_eq] at hxy hyz ⊢
  rcases hxy with h1 | ⟨he1, h1⟩
  · rcases hyz with h2 | ⟨he2, h2⟩
    · exact Or.inl (ha _ _ _ h1 h2)
    · exact Or.inl (he2 ▸ h1)
  · rcases hyz with h2 | ⟨he2, h2⟩
    · exact Or.inl (he1 ▸ h2)
    · exact Or.inr ⟨he1.trans he2, hb _ _ _ h1 h2⟩

theorem pairLt_total [BEq α] [LawfulBEq α] {la : α → α → Bool} {lb : β → β → Bool}
    (ha : ∀ a b, la a b = false → la b a = false → a = b)
    (hb : ∀ a b, lb a b = false → lb b a = false → a = b) :
    ∀ x y, pairLt la lb x y = false → pairLt la lb y x = false → x = y := by
  intro x y hxy hyx
  simp only [pairLt, Bool.or_eq_false_iff, Bool.and_eq_false_iff,
    beq_eq_false_iff_ne, ne_eq, Bool.not_eq_true] at hxy hyx
  obtain ⟨h1, h2⟩ := hxy
  obtain ⟨h3, h4⟩ := hyx
  have he : x.1 = y.1 := ha _ _ h1 h3
  rcases h2 with h2 | h2
  · exact absurd he h2
  · rcases h4 with h4 | h4
    · exact absurd he.symm h4
    · exact Prod.ext he (hb _ _ h2 h4)

theorem pairLt_false_fst [BEq α] [LawfulBEq α] {la : α → α → Bool} {lb : β → β → Bool}
    {x y : α × β} (h : pairLt la lb x y = false) : la x.1 y.1 = false := by
  simp only [pairLt, Bool.or_eq_false_iff] at h
  exact h.1

/-- Python `<` on rationals, as a Bool. -/
def qLtB (a b : ℚ) : Bool := decide (a < b)

/-- Python `<` on ints (node ids), as a Bool. -/
def natLtB (a b : Node) : Bool := decide (a < b)

theorem qLtB_irrefl : ∀ a, qLtB a a = false := by intro a; simp [qLtB]

theorem qLtB_trans : ∀ a b c, qLtB a b → qLtB b c → qLtB a c := by
  intro a b c h1 h2
  simp only [qLtB, decide_eq_true_eq] at *
  exact h1.trans h2

theorem qLtB_total : ∀ a b, qLtB a b = false → qLtB b a = false → a = b := by
  intro a b h1 h2
  simp only [qLtB, decide_eq_false_iff_not, not_lt] at h1 h2
  exact le_antisymm h2 h1

theorem natLtB_irrefl : ∀ a, natLtB a a = false := by intro a; simp [natLtB]

theorem natLtB_trans : ∀ a b c, natLtB a b → natLtB b c → natLtB a c := by
  intro a b c h1 h2
  simp only [natLtB, decide_eq_true_eq] at *
  exact h1.trans h2

theorem natLtB_total : ∀ a b, natLtB a b = false → natLtB b a = false → a = b := by
  intro a b h1 h2
  simp only [natLtB, decide_eq_false_iff_not, not_lt] at h1 h2
  exact le_antisymm h2 h1

/-! ## `dijkstra` (src/algorithms/dijkstra.py) -/

/-- A heap entry of `dijkstra`: the Python tuple `(cost, node, path)`. -/
abbrev DEntry := ℚ × Node × List Node

/-- Python comparison of `(cost, node, path)` tuples. -/
def dEntryLt : DEntry → DEntry → Bool :=
  pairLt qLtB (pairLt natLtB listLt)

theorem dEntryLt_irrefl : ∀ x, dEntryLt x x = false :=
  pairLt_irrefl qLtB_irrefl (pairLt_irrefl natLtB_irrefl listLt_irrefl)

theorem dEntryLt_trans : ∀ x y z, dEntryLt x y → dEntryLt y z → dEntryLt x z :=
  pairLt_trans qLtB_trans (pairLt_trans natLtB_trans listLt_trans)

theorem dEntryLt_total : ∀ x y, dEntryLt x y = false → dEntryLt y x = false → x = y :=
  pairLt_total qLtB_total (pairLt_total natLtB_total listLt_total)

theorem dEntryLt_false_cost {x y : DEntry} (h : dEntryLt x y = false) : y.1 ≤ x.1 := by
  have := pairLt_false_fst h
  simp only [qLtB, decide_eq_false_iff_not, not_lt] at this
  exact this

/-- The body of `dijkstra`'s `while queue:` loop, with explicit fuel.
Faithful to the source: pop the minimal `(cost, node, path)` tuple, skip
already-visited nodes, settle `node` (extending the popped path), return on
reaching `end`, and push `(cost + weight, neighbor, path)` for each
unvisited neighbor.  `none` means the fuel ran out (proved unreachable for
`dijkstraFuel`). -/
def dijkstraLoop (g : Graph) (t : Node) :
    ℕ → List DEntry → Finset Node → Option (List Node)
  | 0, _, _ => none
  | fuel + 1, queue, visited =>
    match popMin dEntryLt queue with
    | none => some []
    | some ((cost, node, path), rest) =>
      if node ∈ visited then dijkstraLoop g t fuel rest visited
      else
        let visited' := insert node visited
        let path' := path ++ [node]
        if node = t then some path'
        else
          dijkstraLoop g t fuel
            (rest ++ (g.adjOf node).filterMap fun q =>
              if q.1 ∈ visited' then none else some (cost + q.2, q.1, path'))
            visited'

/-- Fuel bound: one more than the total number of heap pushes that can ever
happen (the initial entry plus, for every node that can be settled, its
out-degree). -/
def dijkstraFuel (g : Graph) (s : Node) : ℕ :=
  (∑ v ∈ insert s g.targets, (1 + (g.adjOf v).length)) + 2

/-- `dijkstra(graph, start, end)` from src/algorithms/dijkstra.py.  Returns
the node sequence, `[]` when no path exists (the `NoPathFound` signal). -/
def dijkstra (g : Graph) (s t : Node) : List Node :=
  (dijkstraLoop g t (dijkstraFuel g s) [(0, s, [])] ∅).getD []

/-! ## `astar` (src/algorithms/astar.py) -/

/-- A heap entry of `astar`: the Python tuple `(f, cost, node, path)`. -/
abbrev AEntry := ℚ × ℚ × Node × List Node

/-- Python comparison of `(f, cost, node, path)` tuples. -/
def aEntryLt : AEntry → AEntry → Bool :=
  pairLt qLtB (pairLt qLtB (pairLt natLtB listLt))

theorem aEntryLt_irrefl : ∀ x, aEntryLt x x = false :=
  pairLt_irrefl qLtB_irrefl
    (pairLt_irrefl qLtB_irrefl (pairLt_irrefl natLtB_irrefl listLt_irrefl))

theorem aEntryLt_trans : ∀ x y z, aEntryLt x y → aEntryLt y z → aEntryLt x z :=
  pairLt_trans qLtB_trans
    (pairLt_trans qLtB_trans (pairLt_trans natLtB_trans listLt_trans))

theorem aEntryLt_total : ∀ x y, aEntryLt x y = false → aEntryLt y x = false → x = y :=
  pairLt_total qLtB_total
    (pairLt_total qLtB_total (pairLt_total natLtB_total listLt_total))

theorem aEntryLt_false_f {x y : AEntry} (h : aEntryLt x y = false) : y.1 ≤ x.1 := by
  have := pairLt_false_fst h
  simp only [qLtB, decide_eq_false_iff_not, not_lt] at this
  exact this

/-- The default heuristic of `astar`: the Python default argument
`lambda x, y: 1` (the constant-one function). -/
def astarDefaultHeuristic : Node → Node → ℚ := fun _ _ => 1

/-- The body of `astar`'s `while queue:` loop, with explicit fuel.  Faithful
to the source: entries are `(f, cost, node, path)` with
`f = g + heuristic(neighbor, end)` computed at push time; pops take the
minimal tuple; the initial entry is `(0, 0, start, [])`. -/
def astarLoop (g : Graph) (heuristic : Node → Node → ℚ) (t : Node) :
    ℕ → List AEntry → Finset Node → Option (List Node)
  | 0, _, _ => none
  | fuel + 1, queue, visited =>
    match popMin aEntryLt queue with
    | none => some []
    | some ((_f, cost, node, path), rest) =>
      if node ∈ visited then astarLoop g heuristic t fuel rest visited
      else
        let visited' := insert node visited
        let path' := path ++ [node]
        if node = t then some path'
        else
          astarLoop g heuristic t fuel
            (rest ++ (g.adjOf node).filterMap fun q =>
              if q.1 ∈ visited' then none
              else some (cost + q.2 + heuristic q.1 t, cost + q.2, q.1, path'))
            visited'

/-- Fuel bound for `astar`, same counting as for `dijkstra`. -/
def astarFuel (g : Graph) (s : Node) : ℕ :=
  (∑ v ∈ insert s g.targets, (1 + (g.adjOf v).length)) + 2

/-- `astar(graph, start, end, heuristic)` from src/algorithms/astar.py.
Returns the node sequence, `[]` when no path exists (the `NoPathFound`
signal).  The Python default for `heuristic` is `astarDefaultHeuristic`. -/
def astar (g : Graph) (s t : Node) (heuristic : Node → Node → ℚ) : List Node :=
  (astarLoop g heuristic t (astarFuel g s) [(0, 0, s, [])] ∅).getD []

/-! ## Weak invariant for `dijkstraLoop`: walk soundness, simplicity,
completeness.  It needs no assumption on the edge weights. -/

/-- Entries pushed when settling `node` with accumulated cost `cost` and
settled path `pa`. -/
def dPushes (g : Graph) (c : ℚ) (n : Node) (pa : List Node) (vis : Finset Node) :
    List DEntry :=
  (g.adjOf n).filterMap fun q =>
    if q.1 ∈ vis then none else some (c + q.2, q.1, pa)

theorem mem_dPushes {g : Graph} {c : ℚ} {n : Node} {pa : List Node}
    {vis : Finset Node} {e : DEntry} :
    e ∈ dPushes g c n pa vis ↔
      ∃ q ∈ g.adjOf n, q.1 ∉ vis ∧ e = (c + q.2, q.1, pa) := by
  unfold dPushes
  rw [List.mem_filterMap]
  constructor
  · rintro ⟨q, hq, hfq⟩
    by_cases hv : q.1 ∈ vis
    · rw [if_pos hv] at hfq; cases hfq
    · rw [if_neg hv] at hfq
      exact ⟨q, hq, hv, (Option.some.injEq _ _).mp hfq |>.symm⟩
  · rintro ⟨q, hq, hv, rfl⟩
    exact ⟨q, hq, by rw [if_neg hv]⟩

theorem dPushes_length (g : Graph) (c : ℚ) (n : Node) (pa : List Node)
    (vis : Finset Node) : (dPushes g c n pa vis).length ≤ (g.adjOf n).length :=
  List.length_filterMap_le _ _

/-- The loop's termination potential: queue length plus, for every settleable
but unsettled node, one plus its out-degree. -/
def dPotential (g : Graph) (s : Node) (queue : List DEntry) (vis : Finset Node) : ℕ :=
  queue.length + ∑ v ∈ (insert s g.targets) \ vis, (1 + (g.adjOf v).length)

/-- Weak invariant of `dijkstraLoop`: every queued tuple holds a simple walk
from `s` to its node whose earlier nodes are settled; every edge out of the
settled region and the start are represented in the queue; the target is not
settled. -/
structure DInvW (g : Graph) (s t : Node) (queue : List DEntry) (vis : Finset Node) :
    Prop where
  inS : ∀ e ∈ queue, e.2.1 ∈ insert s g.targets
  sound : ∀ e ∈ queue, IsWalkFrom g s e.2.1 (e.2.2 ++ [e.2.1])
  nodup : ∀ e ∈ queue, (e.2.2 ++ [e.2.1]).Nodup
  inVis : ∀ e ∈ queue, ∀ x ∈ e.2.2, x ∈ vis
  frontier : ∀ v ∈ vis, ∀ q ∈ g.adjOf v, q.1 ∉ vis → ∃ e ∈ queue, e.2.1 = q.1
  origin : s ∉ vis → ∃ e ∈ queue, e.2.1 = s
  notEnd : t ∉ vis

/-- Any walk from `s` to an unsettled node guarantees an unsettled entry in
the queue. -/
theorem dInvW_cover {g : Graph} {s t : Node} {queue : List DEntry}
    {vis : Finset Node} (inv : DInvW g s t queue vis) :
    ∀ {W : List Node} {b : Node}, IsWalkFrom g s b W → b ∉ vis →
      ∃ e ∈ queue, e.2.1 ∉ vis := by
  intro W
  induction W using List.reverseRecOn with
  | nil => intro b hw hb; cases hw.1
  | append_singleton p c ih =>
    intro b hw hb
    obtain ⟨hbc, hnil, hcons⟩ := isWalkFrom_snoc_inv hw
    subst hbc
    by_cases hp : p = []
    · have hs : s = b := hnil hp
      obtain ⟨e, he, hes⟩ := inv.origin (hs ▸ hb)
      exact ⟨e, he, by rw [hes, hs]; exact hb⟩
    · obtain ⟨b', hwb', hedge⟩ := hcons hp
      by_cases hb' : b' ∈ vis
      · obtain ⟨q, hq, hq1⟩ := hedge
        obtain ⟨e, he, he1⟩ := inv.frontier b' hb' q hq (by rw [hq1]; exact hb)
        exact ⟨e, he, by rw [he1, hq1]; exact hb⟩
      · exact ih hwb' hb'

/-- Weak master theorem for `dijkstraLoop`: with enough fuel the loop
completes, and returns `[]` exactly when the target is unreachable,
otherwise a simple walk from start to target. -/
theorem dijkstraLoop_weak (g : Graph) (s t : Node) :
    ∀ (fuel : ℕ) (queue : List DEntry) (vis : Finset Node),
      DInvW g s t queue vis →
      dPotential g s queue vis < fuel →
      ∃ p, dijkstraLoop g t fuel queue vis = some p ∧
        (p = [] → ¬ Reachable g s t) ∧
        (p ≠ [] → IsWalkFrom g s t p ∧ p.Nodup) := by
  intro fuel
  induction fuel with
  | zero => intro queue vis _ hpot; omega
  | succ fuel ih =>
    intro queue vis inv hpot
    rw [dijkstraLoop]
    cases hpop : popMin dEntryLt queue with
    | none =>
      refine ⟨[], ?_, ?_, ?_⟩
      · exact rfl
      · intro _ hre
        obtain ⟨W, hW⟩ := hre
        obtain ⟨e, he, -⟩ := dInvW_cover inv hW inv.notEnd
        rw [popMin_eq_none.mp hpop] at he
        cases he
      · intro h
        exact absurd rfl h
    | some pr =>
      obtain ⟨⟨c, n, pa⟩, rest⟩ := pr
      dsimp only
      have hqne : queue ≠ [] := by
        intro h
        rw [h] at hpop
        exact Option.noConfusion ((popMin_eq_none.mpr rfl).symm.trans hpop)
      have hql : 1 ≤ queue.length := by
        cases queue with
        | nil => exact absurd rfl hqne
        | cons x xs => simp
      have hrl : rest.length = queue.length - 1 := popMin_length hpop
      by_cases hvis : n ∈ vis
      · rw [if_pos hvis]
        refine ih rest vis ⟨?_, ?_, ?_, ?_, ?_, ?_, inv.notEnd⟩ ?_
        · exact fun e he => inv.inS e (popMin_rest_subset hpop he)
        · exact fun e he => inv.sound e (popMin_rest_subset hpop he)
        · exact fun e he => inv.nodup e (popMin_rest_subset hpop he)
        · exact fun e he => inv.inVis e (popMin_rest_subset hpop he)
        · intro v hv q hq hq1
          obtain ⟨e, he, he1⟩ := inv.frontier v hv q hq hq1
          refine ⟨e, popMin_mem_rest hpop he ?_, he1⟩
          intro hcon
          rw [hcon] at he1
          exact hq1 (he1 ▸ hvis)
        · intro hs
          obtain ⟨e, he, he1⟩ := inv.origin hs
          refine ⟨e, popMin_mem_rest hpop he ?_, he1⟩
          intro hcon
          rw [hcon] at he1
          exact hs (he1 ▸ hvis)
        · unfold dPotential at hpot ⊢
          omega
      · rw [if_neg hvis]
        have hpopmem := popMin_mem hpop
        by_cases hnt : n = t
        · subst hnt
          rw [if_pos rfl]
          refine ⟨pa ++ [n], rfl, fun h => absurd h (by simp), fun _ => ?_⟩
          exact ⟨inv.sound _ hpopmem, inv.nodup _ hpopmem⟩
        · rw [if_neg hnt]
          have hnS : n ∈ insert s g.targets := inv.inS _ hpopmem
          have hwalk : IsWalkFrom g s n (pa ++ [n]) := inv.sound _ hpopmem
          have hnd : (pa ++ [n]).Nodup := inv.nodup _ hpopmem
          have hpavis : ∀ x ∈ pa, x ∈ vis := inv.inVis _ hpopmem
          have hpavis' : ∀ x ∈ pa ++ [n], x ∈ insert n vis := by
            intro x hx
            rcases List.mem_append.mp hx with hx | hx
            · exact Finset.mem_insert_of_mem (hpavis x hx)
            · simp only [List.mem_singleton] at hx
              exact hx ▸ Finset.mem_insert_self n vis
          refine ih _ _ ⟨?_, ?_, ?_, ?_, ?_, ?_, ?_⟩ ?_
          · intro e he
            rcases List.mem_append.mp he with he | he
            · exact inv.inS e (popMin_rest_subset hpop he)
            · obtain ⟨q, hq, -, rfl⟩ := mem_dPushes.mp he
              exact Finset.mem_insert_of_mem (g.mem_targets_of_mem_adjOf hq)
          · intro e he
            rcases List.mem_append.mp he with he | he
            · exact inv.sound e (popMin_rest_subset hpop he)
            · obtain ⟨q, hq, -, rfl⟩ := mem_dPushes.mp he
              exact isWalkFrom_snoc hwalk ⟨q, hq, rfl⟩
          · intro e he
            rcases List.mem_append.mp he with he | he
            · exact inv.nodup e (popMin_rest_subset hpop he)
            · obtain ⟨q, hq, hqv, rfl⟩ := mem_dPushes.mp he
              refine List.Nodup.append hnd (List.nodup_singleton _) ?_
              intro x hx hx2
              simp only [List.mem_singleton] at hx2
              exact hqv (hx2 ▸ hpavis' x hx)
          · intro e he
            rcases List.mem_append.mp he with he | he
            · intro x hx
              exact Finset.mem_insert_of_mem
                (inv.inVis e (popMin_rest_subset hpop he) x hx)
            · obtain ⟨q, hq, -, rfl⟩ := mem_dPushes.mp he
              exact fun x hx => hpavis' x hx
          · intro v hv q hq hq1
            rcases Finset.mem_insert.mp hv with rfl | hv
            · refine ⟨(c + q.2, q.1, pa ++ [v]), ?_, rfl⟩
              exact List.mem_append_right _ (mem_dPushes.mpr ⟨q, hq, hq1, rfl⟩)
            · have hq1' : q.1 ∉ vis := fun h => hq1 (Finset.mem_insert_of_mem h)
              obtain ⟨e, he, he1⟩ := inv.frontier v hv q hq hq1'
              refine ⟨e, List.mem_append_left _ (popMin_mem_rest hpop he ?_), he1⟩
              intro hcon
              rw [hcon] at he1
              exact hq1 (he1 ▸ Finset.mem_insert_self n vis)
          · intro hs
            have hs' : s ∉ vis := fun h => hs (Finset.mem_insert_of_mem h)
            obtain ⟨e, he, he1⟩ := inv.origin hs'
            refine ⟨e, List.mem_append_left _ (popMin_mem_rest hpop he ?_), he1⟩
            intro hcon
            rw [hcon] at he1
            exact hs (he1 ▸ Finset.mem_insert_self n vis)
          · exact fun h => hnt (by
              rcases Finset.mem_insert.mp h with h | h
              · exact h.symm
              · exact absurd h inv.notEnd)
          · have hsum : (1 + (g.adjOf n).length) +
                ∑ v ∈ ((insert s g.targets \ vis).erase n), (1 + (g.adjOf v).length) =
                ∑ v ∈ (insert s g.targets \ vis), (1 + (g.adjOf v).length) :=
              Finset.add_sum_erase _ (fun v => 1 + (g.adjOf v).length)
                (Finset.mem_sdiff.mpr ⟨hnS, hvis⟩)
            have hset : insert s g.targets \ insert n vis =
                (insert s g.targets \ vis).erase n := by
              ext x
              simp only [Finset.mem_sdiff, Finset.mem_insert, Finset.mem_erase]
              tauto
            unfold dPotential at hpot ⊢
            rw [hset, List.length_append]
            have hpl : (List.filterMap
                (fun q => if q.1 ∈ insert n vis then none
                  else some ((c + q.2, q.1, pa ++ [n]) : DEntry))
                (g.adjOf n)).length ≤ (g.adjOf n).length :=
              List.length_filterMap_le _ _
            omega

theorem dInvW_initial (g : Graph) (s t : Node) : DInvW g s t [(0, s, [])] ∅ := by
  refine ⟨?_, ?_, ?_, ?_, ?_, ?_, ?_⟩
  · intro e he
    simp only [List.mem_singleton] at he
    subst he
    exact Finset.mem_insert_self s _
  · intro e he
    simp only [List.mem_singleton] at he
    subst he
    exact isWalkFrom_singleton g s
  · intro e he
    simp only [List.mem_singleton] at he
    subst he
    simp
  · intro e he
    simp only [List.mem_singleton] at he
    subst he
    intro x hx
    cases hx
  · intro v hv
    cases hv
  · intro _
    exact ⟨(0, s, []), List.mem_singleton_self _, rfl⟩
  · exact Finset.not_mem_empty t

theorem dPotential_initial_lt (g : Graph) (s : Node) :
    dPotential g s [(0, s, [])] ∅ < dijkstraFuel g s := by
  unfold dPotential dijkstraFuel
  simp only [List.length_singleton, Finset.sdiff_empty]
  omega

/-- The three possible shapes of a `dijkstra` result: `[]` exactly on
unreachable inputs, otherwise a simple walk from start to target. -/
theorem dijkstra_cases (g : Graph) (s t : Node) :
    (dijkstra g s t = [] → ¬ Reachable g s t) ∧
    (dijkstra g s t ≠ [] → IsWalkFrom g s t (dijkstra g s t) ∧ (dijkstra g s t).Nodup) := by
  obtain ⟨p, hp, h1, h2⟩ :=
    dijkstraLoop_weak g s t (dijkstraFuel g s) [(0, s, [])] ∅
      (dInvW_initial g s t) (dPotential_initial_lt g s)
  unfold dijkstra
  rw [hp]
  exact ⟨h1, h2⟩

/-! ## Weak invariant for `astarLoop`: the same facts, for an arbitrary
heuristic (no assumptions on `heuristic` or the weights). -/

def aPushes (g : Graph) (heuristic : Node → Node → ℚ) (t : Node) (c : ℚ) (n : Node)
    (pa : List Node) (vis : Finset Node) : List AEntry :=
  (g.adjOf n).filterMap fun q =>
    if q.1 ∈ vis then none
    else some (c + q.2 + heuristic q.1 t, c + q.2, q.1, pa)

theorem mem_aPushes {g : Graph} {heuristic : Node → Node → ℚ} {t : Node} {c : ℚ}
    {n : Node} {pa : List Node} {vis : Finset Node} {e : AEntry} :
    e ∈ aPushes g heuristic t c n pa vis ↔
      ∃ q ∈ g.adjOf n, q.1 ∉ vis ∧
        e = (c + q.2 + heuristic q.1 t, c + q.2, q.1, pa) := by
  unfold aPushes
  rw [List.mem_filterMap]
  constructor
  · rintro ⟨q, hq, hfq⟩
    by_cases hv : q.1 ∈ vis
    · rw [if_pos hv] at hfq; cases hfq
    · rw [if_neg hv] at hfq
      exact ⟨q, hq, hv, (Option.some.injEq _ _).mp hfq |>.symm⟩
  · rintro ⟨q, hq, hv, rfl⟩
    exact ⟨q, hq, by rw [if_neg hv]⟩

/-- Weak invariant of `astarLoop`; `e.2.2.1` is the node and `e.2.2.2` the
path of the queued tuple `(f, cost, node, path)`. -/
structure AInvW (g : Graph) (s t : Node) (queue : List AEntry) (vis : Finset Node) :
    Prop where
  inS : ∀ e ∈ queue, e.2.2.1 ∈ insert s g.targets
  sound : ∀ e ∈ queue, IsWalkFrom g s e.2.2.1 (e.2.2.2 ++ [e.2.2.1])
  nodup : ∀ e ∈ queue, (e.2.2.2 ++ [e.2.2.1]).Nodup
  inVis : ∀ e ∈ queue, ∀ x ∈ e.2.2.2, x ∈ vis
  frontier : ∀ v ∈ vis, ∀ q ∈ g.adjOf v, q.1 ∉ vis → ∃ e ∈ queue, e.2.2.1 = q.1
  origin : s ∉ vis → ∃ e ∈ queue, e.2.2.1 = s
  notEnd : t ∉ vis

theorem aInvW_cover {g : Graph} {s t : Node} {queue : List AEntry}
    {vis : Finset Node} (inv : AInvW g s t queue vis) :
    ∀ {W : List Node} {b : Node}, IsWalkFrom g s b W → b ∉ vis →
      ∃ e ∈ queue, e.2.2.1 ∉ vis := by
  intro W
  induction W using List.reverseRecOn with
  | nil => intro b hw hb; cases hw.1
  | append_singleton p c ih =>
    intro b hw hb
    obtain ⟨hbc, hnil, hcons⟩ := isWalkFrom_snoc_inv hw
    subst hbc
    by_cases hp : p = []
    · have hs : s = b := hnil hp
      obtain ⟨e, he, hes⟩ := inv.origin (hs ▸ hb)
      exact ⟨e, he, by rw [hes, hs]; exact hb⟩
    · obtain ⟨b', hwb', hedge⟩ := hcons hp
      by_cases hb' : b' ∈ vis
      · obtain ⟨q, hq, hq1⟩ := hedge
        obtain ⟨e, he, he1⟩ := inv.frontier b' hb' q hq (by rw [hq1]; exact hb)
        exact ⟨e, he, by rw [he1, hq1]; exact hb⟩
      · exact ih hwb' hb'

/-- Weak master theorem for `astarLoop`, for an arbitrary heuristic. -/
theorem astarLoop_weak (g : Graph) (heuristic : Node → Node → ℚ) (s t : Node) :
    ∀ (fuel : ℕ) (queue : List AEntry) (vis : Finset Node),
      AInvW g s t queue vis →
      queue.length + ∑ v ∈ (insert s g.targets) \ vis, (1 + (g.adjOf v).length) < fuel →
      ∃ p, astarLoop g heuristic t fuel queue vis = some p ∧
        (p = [] → ¬ Reachable g s t) ∧
        (p ≠ [] → IsWalkFrom g s t p ∧ p.Nodup) := by
  intro fuel
  induction fuel with
  | zero => intro queue vis _ hpot; omega
  | succ fuel ih =>
    intro queue vis inv hpot
    rw [astarLoop]
    cases hpop : popMin aEntryLt queue with
    | none =>
      refine ⟨[], ?_, ?_, ?_⟩
      · exact rfl
      · intro _ hre
        obtain ⟨W, hW⟩ := hre
        obtain ⟨e, he, -⟩ := aInvW_cover inv hW inv.notEnd
        rw [popMin_eq_none.mp hpop] at he
        cases he
      · intro h
        exact absurd rfl h
    | some pr =>
      obtain ⟨⟨f, c, n, pa⟩, rest⟩ := pr
      dsimp only
      have hqne : queue ≠ [] := by
        intro h
        rw [h] at hpop
        exact Option.noConfusion ((popMin_eq_none.mpr rfl).symm.trans hpop)
      have hql : 1 ≤ queue.length := by
        cases queue with
        | nil => exact absurd rfl hqne
        | cons x xs => simp
      have hrl : rest.length = queue.length - 1 := popMin_length hpop
      by_cases hvis : n ∈ vis
      · rw [if_pos hvis]
        refine ih rest vis ⟨?_, ?_, ?_, ?_, ?_, ?_, inv.notEnd⟩ ?_
        · exact fun e he => inv.inS e (popMin_rest_subset hpop he)
        · exact fun e he => inv.sound e (popMin_rest_subset hpop he)
        · exact fun e he => inv.nodup e (popMin_rest_subset hpop he)
        · exact fun e he => inv.inVis e (popMin_rest_subset hpop he)
        · intro v hv q hq hq1
          obtain ⟨e, he, he1⟩ := inv.frontier v hv q hq hq1
          refine ⟨e, popMin_mem_rest hpop he ?_, he1⟩
          intro hcon
          rw [hcon] at he1
          exact hq1 (he1 ▸ hvis)
        · intro hs
          obtain ⟨e, he, he1⟩ := inv.origin hs
          refine ⟨e, popMin_mem_rest hpop he ?_, he1⟩
          intro hcon
          rw [hcon] at he1
          exact hs (he1 ▸ hvis)
        · omega
      · rw [if_neg hvis]
        have hpopmem := popMin_mem hpop
        by_cases hnt : n = t
        · subst hnt
          rw [if_pos rfl]
          refine ⟨pa ++ [n], rfl, fun h => absurd h (by simp), fun _ => ?_⟩
          exact ⟨inv.sound _ hpopmem, inv.nodup _ hpopmem⟩
        · rw [if_neg hnt]
          have hnS : n ∈ insert s g.targets := inv.inS _ hpopmem
          have hwalk : IsWalkFrom g s n (pa ++ [n]) := inv.sound _ hpopmem
          have hnd : (pa ++ [n]).Nodup := inv.nodup _ hpopmem
          have hpavis : ∀ x ∈ pa, x ∈ vis := inv.inVis _ hpopmem
          have hpavis' : ∀ x ∈ pa ++ [n], x ∈ insert n vis := by
            intro x hx
            rcases List.mem_append.mp hx with hx | hx
            · exact Finset.mem_insert_of_mem (hpavis x hx)
            · simp only [List.mem_singleton] at hx
              exact hx ▸ Finset.mem_insert_self n vis
          refine ih _ _ ⟨?_, ?_, ?_, ?_, ?_, ?_, ?_⟩ ?_
          · intro e he
            rcases List.mem_append.mp he with he | he
            · exact inv.inS e (popMin_rest_subset hpop he)
            · obtain ⟨q, hq, -, rfl⟩ := mem_aPushes.mp he
              exact Finset.mem_insert_of_mem (g.mem_targets_of_mem_adjOf hq)
          · intro e he
            rcases List.mem_append.mp he with he | he
            · exact inv.sound e (popMin_rest_subset hpop he)
            · obtain ⟨q, hq, -, rfl⟩ := mem_aPushes.mp he
              exact isWalkFrom_snoc hwalk ⟨q, hq, rfl⟩
          · intro e he
            rcases List.mem_append.mp he with he | he
            · exact inv.nodup e (popMin_rest_subset hpop he)
            · obtain ⟨q, hq, hqv, rfl⟩ := mem_aPushes.mp he
              refine List.Nodup.append hnd (List.nodup_singleton _) ?_
              intro x hx hx2
              simp only [List.mem_singleton] at hx2
              exact hqv (hx2 ▸ hpavis' x hx)
          · intro e he
            rcases List.mem_append.mp he with he | he
            · intro x hx
              exact Finset.mem_insert_of_mem
                (inv.inVis e (popMin_rest_subset hpop he) x hx)
            · obtain ⟨q, hq, -, rfl⟩ := mem_aPushes.mp he
              exact fun x hx => hpavis' x hx
          · intro v hv q hq hq1
            rcases Finset.mem_insert.mp hv with rfl | hv
            · refine ⟨(c + q.2 + heuristic q.1 t, c + q.2, q.1, pa ++ [v]), ?_, rfl⟩
              exact List.mem_append_right _ (mem_aPushes.mpr ⟨q, hq, hq1, rfl⟩)
            · have hq1' : q.1 ∉ vis := fun h => hq1 (Finset.mem_insert_of_mem h)
              obtain ⟨e, he, he1⟩ := inv.frontier v hv q hq hq1'
              refine ⟨e, List.mem_append_left _ (popMin_mem_rest hpop he ?_), he1⟩
              intro hcon
              rw [hcon] at he1
              exact hq1 (he1 ▸ Finset.mem_insert_self n vis)
          · intro hs
            have hs' : s ∉ vis := fun h => hs (Finset.mem_insert_of_mem h)
            obtain ⟨e, he, he1⟩ := inv.origin hs'
            refine ⟨e, List.mem_append_left _ (popMin_mem_rest hpop he ?_), he1⟩
            intro hcon
            rw [hcon] at he1
            exact hs (he1 ▸ Finset.mem_insert_self n vis)
          · exact fun h => hnt (by
              rcases Finset.mem_insert.mp h with h | h
              · exact h.symm
              · exact absurd h inv.notEnd)
          · have hsum : (1 + (g.adjOf n).length) +
                ∑ v ∈ ((insert s g.targets \ vis).erase n), (1 + (g.adjOf v).length) =
                ∑ v ∈ (insert s g.targets \ vis), (1 + (g.adjOf v).length) :=
              Finset.add_sum_erase _ (fun v => 1 + (g.adjOf v).length)
                (Finset.mem_sdiff.mpr ⟨hnS, hvis⟩)
            have hset : insert s g.targets \ insert n vis =
                (insert s g.targets \ vis).erase n := by
              ext x
              simp only [Finset.mem_sdiff, Finset.mem_insert, Finset.mem_erase]
              tauto
            rw [hset, List.length_append]
            have hpl : (List.filterMap
                (fun q => if q.1 ∈ insert n vis then none
                  else some ((c + q.2 + heuristic q.1 t, c + q.2, q.1, pa ++ [n]) : AEntry))
                (g.adjOf n)).length ≤ (g.adjOf n).length :=
              List.length_filterMap_le _ _
            omega

theorem aInvW_initial (g : Graph) (s t : Node) : AInvW g s t [(0, 0, s, [])] ∅ := by
  refine ⟨?_, ?_, ?_, ?_, ?_, ?_, ?_⟩
  · intro e he
    simp only [List.mem_singleton] at he
    subst he
    exact Finset.mem_insert_self s _
  · intro e he
    simp only [List.mem_singleton] at he
    subst he
    exact isWalkFrom_singleton g s
  · intro e he
    simp only [List.mem_singleton] at he
    subst he
    simp
  · intro e he
    simp only [List.mem_singleton] at he
    subst he
    intro x hx
    cases hx
  · intro v hv
    cases hv
  · intro _
    exact ⟨(0, 0, s, []), List.mem_singleton_self _, rfl⟩
  · exact Finset.not_mem_empty t

/-- The three possible shapes of an `astar` result, for any heuristic. -/
theorem astar_cases (g : Graph) (s t : Node) (heuristic : Node → Node → ℚ) :
    (astar g s t heuristic = [] → ¬ Reachable g s t) ∧
    (astar g s t heuristic ≠ [] →
      IsWalkFrom g s t (astar g s t heuristic) ∧ (astar g s t heuristic).Nodup) := by
  obtain ⟨p, hp, h1, h2⟩ :=
    astarLoop_weak g heuristic s t (astarFuel g s) [(0, 0, s, [])] ∅
      (aInvW_initial g s t)
      (by unfold astarFuel
          simp only [List.length_singleton, Finset.sdiff_empty]
          omega)
  unfold astar
  rw [hp]
  exact ⟨h1, h2⟩

/-! ## Strong invariant for `dijkstraLoop`: cost bookkeeping and optimality.
Needs non-negative weights and dictionary well-formedness. -/

/-- Strong invariant: queued costs are exact walk weights, `sc` records for
every settled node a cost that lower-bounds every walk to it, and each edge
out of the settled region has a queued entry whose cost is at most the cost
through the settled endpoint. -/
structure DInvS (g : Graph) (s t : Node) (sc : Node → ℚ)
    (queue : List DEntry) (vis : Finset Node) : Prop where
  inS : ∀ e ∈ queue, e.2.1 ∈ insert s g.targets
  soundW : ∀ e ∈ queue, IsWalkFrom g s e.2.1 (e.2.2 ++ [e.2.1]) ∧
    walkWeight g (e.2.2 ++ [e.2.1]) = e.1
  settled : ∀ v ∈ vis, ∀ W, IsWalkFrom g s v W → sc v ≤ walkWeight g W
  frontierS : ∀ v ∈ vis, ∀ q ∈ g.adjOf v, q.1 ∉ vis →
    ∃ e ∈ queue, e.2.1 = q.1 ∧ e.1 ≤ sc v + q.2
  originS : s ∉ vis → ∃ e ∈ queue, e.2.1 = s ∧ e.1 ≤ 0
  notEnd : t ∉ vis

/-- Strong covering: any walk from `s` to an unsettled node has a queued
entry at an unsettled node whose cost is at most the walk's weight. -/
theorem dInvS_cover {g : Graph} {s t : Node} {sc : Node → ℚ} {queue : List DEntry}
    {vis : Finset Node} (inv : DInvS g s t sc queue vis)
    (hw : g.Nonneg) (hwf : g.WF) :
    ∀ {W : List Node} {b : Node}, IsWalkFrom g s b W → b ∉ vis →
      ∃ e ∈ queue, e.2.1 ∉ vis ∧ e.1 ≤ walkWeight g W := by
  intro W
  induction W using List.reverseRecOn with
  | nil => intro b hwk hb; cases hwk.1
  | append_singleton p cl ih =>
    intro b hwk hb
    obtain ⟨hbc, hnil, hcons⟩ := isWalkFrom_snoc_inv hwk
    subst hbc
    by_cases hp : p = []
    · have hs : s = b := hnil hp
      obtain ⟨e, he, hes, hec⟩ := inv.originS (hs ▸ hb)
      subst hp
      refine ⟨e, he, by rw [hes, hs]; exact hb, ?_⟩
      simp only [List.nil_append, walkWeight_singleton]
      exact hec
    · obtain ⟨b', hwb', hedge⟩ := hcons hp
      have hlast : p.getLast? = some b' := hwb'.2.1
      have hsnoc : walkWeight g (p ++ [b]) =
          walkWeight g p + g.edgeWeight b' b := walkWeight_snoc b hlast
      by_cases hb' : b' ∈ vis
      · obtain ⟨q, hq, hq1⟩ := hedge
        obtain ⟨e, he, he1, he2⟩ := inv.frontierS b' hb' q hq (by rw [hq1]; exact hb)
        refine ⟨e, he, by rw [he1, hq1]; exact hb, ?_⟩
        have hsc : sc b' ≤ walkWeight g p := inv.settled b' hb' p hwb'
        have hew : g.edgeWeight b' b = q.2 := by
          have := g.edgeWeight_of_mem hwf hq
          rw [hq1] at this
          exact this
        rw [hsnoc, hew]
        calc e.1 ≤ sc b' + q.2 := he2
          _ ≤ walkWeight g p + q.2 := by linarith
      · obtain ⟨e, he, he1, he2⟩ := ih hwb' hb'
        refine ⟨e, he, he1, ?_⟩
        have hnn : 0 ≤ g.edgeWeight b' b := g.edgeWeight_nonneg hw b' b
        rw [hsnoc]
        linarith

/-- Strong master theorem for `dijkstraLoop`: on reachable inputs the loop
returns a walk from start to target of minimal weight. -/
theorem dijkstraLoop_strong (g : Graph) (hw : g.Nonneg) (hwf : g.WF) (s t : Node) :
    ∀ (fuel : ℕ) (queue : List DEntry) (vis : Finset Node) (sc : Node → ℚ),
      DInvS g s t sc queue vis →
      dPotential g s queue vis < fuel →
      ∃ p, dijkstraLoop g t fuel queue vis = some p ∧
        (Reachable g s t → IsWalkFrom g s t p ∧
          ∀ W, IsWalkFrom g s t W → walkWeight g p ≤ walkWeight g W) := by
  intro fuel
  induction fuel with
  | zero => intro queue vis sc _ hpot; omega
  | succ fuel ih =>
    intro queue vis sc inv hpot
    rw [dijkstraLoop]
    cases hpop : popMin dEntryLt queue with
    | none =>
      refine ⟨[], rfl, ?_⟩
      intro hre
      obtain ⟨W, hW⟩ := hre
      obtain ⟨e, he, -, -⟩ := dInvS_cover inv hw hwf hW inv.notEnd
      rw [popMin_eq_none.mp hpop] at he
      cases he
    | some pr =>
      obtain ⟨⟨c, n, pa⟩, rest⟩ := pr
      dsimp only
      have hqne : queue ≠ [] := by
        intro h
        rw [h] at hpop
        exact Option.noConfusion ((popMin_eq_none.mpr rfl).symm.trans hpop)
      have hql : 1 ≤ queue.length := by
        cases queue with
        | nil => exact absurd rfl hqne
        | cons x xs => simp
      have hrl : rest.length = queue.length - 1 := popMin_length hpop
      have hmin : ∀ x ∈ queue, c ≤ x.1 := by
        intro x hx
        exact dEntryLt_false_cost
          (findMin_min dEntryLt_irrefl dEntryLt_trans dEntryLt_total
            (popMin_some hpop).1 x hx)
      by_cases hvis : n ∈ vis
      · rw [if_pos hvis]
        refine ih rest vis sc ⟨?_, ?_, inv.settled, ?_, ?_, inv.notEnd⟩ ?_
        · exact fun e he => inv.inS e (popMin_rest_subset hpop he)
        · exact fun e he => inv.soundW e (popMin_rest_subset hpop he)
        · intro v hv q hq hq1
          obtain ⟨e, he, he1, he2⟩ := inv.frontierS v hv q hq hq1
          refine ⟨e, popMin_mem_rest hpop he ?_, he1, he2⟩
          intro hcon
          rw [hcon] at he1
          exact hq1 (he1 ▸ hvis)
        · intro hs
          obtain ⟨e, he, he1, he2⟩ := inv.originS hs
          refine ⟨e, popMin_mem_rest hpop he ?_, he1, he2⟩
          intro hcon
          rw [hcon] at he1
          exact hs (he1 ▸ hvis)
        · unfold dPotential at hpot ⊢
          omega
      · rw [if_neg hvis]
        have hpopmem := popMin_mem hpop
        have hnS : n ∈ insert s g.targets := inv.inS _ hpopmem
        have hwalk : IsWalkFrom g s n (pa ++ [n]) := (inv.soundW _ hpopmem).1
        have hwgt : walkWeight g (pa ++ [n]) = c := (inv.soundW _ hpopmem).2
        have hopt : ∀ W, IsWalkFrom g s n W → c ≤ walkWeight g W := by
          intro W hW
          obtain ⟨e, he, -, he2⟩ := dInvS_cover inv hw hwf hW hvis
          exact le_trans (hmin e he) he2
        by_cases hnt : n = t
        · subst hnt
          rw [if_pos rfl]
          refine ⟨pa ++ [n], rfl, fun _ => ⟨hwalk, ?_⟩⟩
          intro W hW
          rw [hwgt]
          exact hopt W hW
        · rw [if_neg hnt]
          refine ih _ _ (fun v => if v = n then c else sc v)
            ⟨?_, ?_, ?_, ?_, ?_, ?_⟩ ?_
          · intro e he
            rcases List.mem_append.mp he with he | he
            · exact inv.inS e (popMin_rest_subset hpop he)
            · obtain ⟨q, hq, -, rfl⟩ := mem_dPushes.mp he
              exact Finset.mem_insert_of_mem (g.mem_targets_of_mem_adjOf hq)
          · intro e he
            rcases List.mem_append.mp he with he | he
            · exact inv.soundW e (popMin_rest_subset hpop he)
            · obtain ⟨q, hq, -, rfl⟩ := mem_dPushes.mp he
              refine ⟨isWalkFrom_snoc hwalk ⟨q, hq, rfl⟩, ?_⟩
              have hlast : (pa ++ [n]).getLast? = some n := List.getLast?_concat _
              rw [walkWeight_snoc q.1 hlast, hwgt, g.edgeWeight_of_mem hwf hq]
          · intro v hv W hW
            rcases Finset.mem_insert.mp hv with rfl | hv
            · rw [if_pos rfl]
              exact hopt W hW
            · have hvn : v ≠ n := fun h => hvis (h ▸ hv)
              rw [if_neg hvn]
              exact inv.settled v hv W hW
          · intro v hv q hq hq1
            rcases Finset.mem_insert.mp hv with rfl | hv
            · rw [if_pos rfl]
              refine ⟨(c + q.2, q.1, pa ++ [v]), ?_, rfl, le_refl _⟩
              exact List.mem_append_right _ (mem_dPushes.mpr ⟨q, hq, hq1, rfl⟩)
            · have hvn : v ≠ n := fun h => hvis (h ▸ hv)
              rw [if_neg hvn]
              have hq1' : q.1 ∉ vis := fun h => hq1 (Finset.mem_insert_of_mem h)
              obtain ⟨e, he, he1, he2⟩ := inv.frontierS v hv q hq hq1'
              refine ⟨e, List.mem_append_left _ (popMin_mem_rest hpop he ?_), he1, he2⟩
              intro hcon
              rw [hcon] at he1
              exact hq1 (he1 ▸ Finset.mem_insert_self n vis)
          · intro hs
            have hs' : s ∉ vis := fun h => hs (Finset.mem_insert_of_mem h)
            obtain ⟨e, he, he1, he2⟩ := inv.originS hs'
            refine ⟨e, List.mem_append_left _ (popMin_mem_rest hpop he ?_), he1, he2⟩
            intro hcon
            rw [hcon] at he1
            exact hs (he1 ▸ Finset.mem_insert_self n vis)
          · exact fun h => hnt (by
              rcases Finset.mem_insert.mp h with h | h
              · exact h.symm
              · exact absurd h inv.notEnd)
          · have hsum : (1 + (g.adjOf n).length) +
                ∑ v ∈ ((insert s g.targets \ vis).erase n), (1 + (g.adjOf v).length) =
                ∑ v ∈ (insert s g.targets \ vis), (1 + (g.adjOf v).length) :=
              Finset.add_sum_erase _ (fun v => 1 + (g.adjOf v).length)
                (Finset.mem_sdiff.mpr ⟨hnS, hvis⟩)
            have hset : insert s g.targets \ insert n vis =
                (insert s g.targets \ vis).erase n := by
              ext x
              simp only [Finset.mem_sdiff, Finset.mem_insert, Finset.mem_erase]
              tauto
            unfold dPotential at hpot ⊢
            rw [hset, List.length_append]
            have hpl : (List.filterMap
                (fun q => if q.1 ∈ insert n vis then none
                  else some ((c + q.2, q.1, pa ++ [n]) : DEntry))
                (g.adjOf n)).length ≤ (g.adjOf n).length :=
              List.length_filterMap_le _ _
            omega

theorem dInvS_initial (g : Graph) (s t : Node) :
    DInvS g s t (fun _ => 0) [(0, s, [])] ∅ := by
  refine ⟨?_, ?_, ?_, ?_, ?_, ?_⟩
  · intro e he
    simp only [List.mem_singleton] at he
    subst he
    exact Finset.mem_insert_self s _
  · intro e he
    simp only [List.mem_singleton] at he
    subst he
    exact ⟨isWalkFrom_singleton g s, walkWeight_singleton g s⟩
  · intro v hv
    cases hv
  · intro v hv
    cases hv
  · intro _
    exact ⟨(0, s, []), List.mem_singleton_self _, rfl, le_refl 0⟩
  · exact Finset.not_mem_empty t

/-- On a non-negatively weighted well-formed graph with `t` reachable from
`s`, `dijkstra` returns a walk from `s` to `t` of minimal total weight. -/
theorem dijkstra_optimal {g : Graph} (hw : g.Nonneg) (hwf : g.WF) {s t : Node}
    (hr : Reachable g s t) :
    IsWalkFrom g s t (dijkstra g s t) ∧
      ∀ W, IsWalkFrom g s t W → walkWeight g (dijkstra g s t) ≤ walkWeight g W := by
  obtain ⟨p, hp, h⟩ :=
    dijkstraLoop_strong g hw hwf s t (dijkstraFuel g s) [(0, s, [])] ∅ (fun _ => 0)
      (dInvS_initial g s t) (dPotential_initial_lt g s)
  unfold dijkstra
  rw [hp]
  exact h hr

/-! ## Strong invariant for `astarLoop` under a consistent, non-negative
heuristic. -/

/-- The heuristic (towards the fixed goal `t`) is non-negative and
consistent: it never exceeds an edge weight plus the heuristic at the edge's
head.  This is the classical condition under which A* with a closed set
(no reopening, as in the source) is optimal. -/
def ConsistentHeuristic (g : Graph) (heuristic : Node → Node → ℚ) (t : Node) : Prop :=
  (∀ n, 0 ≤ heuristic n t) ∧
    ∀ u, ∀ q ∈ g.adjOf u, heuristic u t ≤ q.2 + heuristic q.1 t

/-- Strong invariant of `astarLoop`.  The `f` component of each entry is its
`g`-cost plus the heuristic, except for the initial entry `(0, 0, s, [])`
whose `f` is hard-coded to `0` in the source. -/
structure AInvS (g : Graph) (heuristic : Node → Node → ℚ) (s t : Node)
    (sc : Node → ℚ) (queue : List AEntry) (vis : Finset Node) : Prop where
  inS : ∀ e ∈ queue, e.2.2.1 ∈ insert s g.targets
  soundW : ∀ e ∈ queue, IsWalkFrom g s e.2.2.1 (e.2.2.2 ++ [e.2.2.1]) ∧
    walkWeight g (e.2.2.2 ++ [e.2.2.1]) = e.2.1
  fval : ∀ e ∈ queue, e.1 = e.2.1 + heuristic e.2.2.1 t ∨
    (e.2.2.1 = s ∧ e.2.1 = 0 ∧ e.1 = 0)
  settled : ∀ v ∈ vis, ∀ W, IsWalkFrom g s v W → sc v ≤ walkWeight g W
  frontierS : ∀ v ∈ vis, ∀ q ∈ g.adjOf v, q.1 ∉ vis →
    ∃ e ∈ queue, e.2.2.1 = q.1 ∧ e.2.1 ≤ sc v + q.2
  originS : s ∉ vis → ∃ e ∈ queue, e.2.2.1 = s ∧ e.2.1 ≤ 0 ∧ e.1 ≤ heuristic s t
  notEnd : t ∉ vis

/-- Strong covering for A*: any walk from `s` to an unsettled node has a
queued entry at an unsettled node whose `f` is at most the walk's weight
plus the heuristic at the walk's target. -/
theorem aInvS_cover {g : Graph} {heuristic : Node → Node → ℚ} {s t : Node}
    {sc : Node → ℚ} {queue : List AEntry} {vis : Finset Node}
    (inv : AInvS g heuristic s t sc queue vis)
    (hw : g.Nonneg) (hwf : g.WF) (hch : ConsistentHeuristic g heuristic t) :
    ∀ {W : List Node} {b : Node}, IsWalkFrom g s b W → b ∉ vis →
      ∃ e ∈ queue, e.2.2.1 ∉ vis ∧ e.1 ≤ walkWeight g W + heuristic b t := by
  obtain ⟨hh, hcons⟩ := hch
  intro W
  induction W using List.reverseRecOn with
  | nil => intro b hwk hb; cases hwk.1
  | append_singleton p cl ih =>
    intro b hwk hb
    obtain ⟨hbc, hnil, hcons'⟩ := isWalkFrom_snoc_inv hwk
    subst hbc
    by_cases hp : p = []
    · have hs : s = b := hnil hp
      obtain ⟨e, he, hes, -, hef⟩ := inv.originS (hs ▸ hb)
      subst hp
      refine ⟨e, he, by rw [hes, hs]; exact hb, ?_⟩
      simp only [List.nil_append, walkWeight_singleton, zero_add]
      rw [← hs]
      exact hef
    · obtain ⟨b', hwb', hedge⟩ := hcons' hp
      have hlast : p.getLast? = some b' := hwb'.2.1
      have hsnoc : walkWeight g (p ++ [b]) =
          walkWeight g p + g.edgeWeight b' b := walkWeight_snoc b hlast
      obtain ⟨q, hq, hq1⟩ := hedge
      have hew : g.edgeWeight b' b = q.2 := by
        have := g.edgeWeight_of_mem hwf hq
        rw [hq1] at this
        exact this
      by_cases hb' : b' ∈ vis
      · obtain ⟨e, he, he1, he2⟩ := inv.frontierS b' hb' q hq (by rw [hq1]; exact hb)
        refine ⟨e, he, by rw [he1, hq1]; exact hb, ?_⟩
        have hsc : sc b' ≤ walkWeight g p := inv.settled b' hb' p hwb'
        have hfe : e.1 ≤ e.2.1 + heuristic b t := by
          rcases inv.fval e he with hf | ⟨-, hc0, hf0⟩
          · rw [hf, he1, hq1]
          · rw [hf0, hc0] at *
            have := hh b
            linarith
        rw [hsnoc, hew]
        calc e.1 ≤ e.2.1 + heuristic b t := hfe
          _ ≤ sc b' + q.2 + heuristic b t := by linarith
          _ ≤ walkWeight g p + q.2 + heuristic b t := by linarith
      · obtain ⟨e, he, he1, he2⟩ := ih hwb' hb'
        refine ⟨e, he, he1, ?_⟩
        have hstep : heuristic b' t ≤ q.2 + heuristic q.1 t := hcons b' q hq
        rw [hq1] at hstep
        rw [hsnoc, hew]
        linarith

/-- Strong master theorem for `astarLoop` under a consistent non-negative
heuristic: on reachable inputs the loop returns a walk of minimal weight. -/
theorem astarLoop_strong (g : Graph) (heuristic : Node → Node → ℚ)
    (hw : g.Nonneg) (hwf : g.WF) (s t : Node)
    (hch : ConsistentHeuristic g heuristic t) :
    ∀ (fuel : ℕ) (queue : List AEntry) (vis : Finset Node) (sc : Node → ℚ),
      AInvS g heuristic s t sc queue vis →
      queue.length + ∑ v ∈ (insert s g.targets) \ vis, (1 + (g.adjOf v).length) < fuel →
      ∃ p, astarLoop g heuristic t fuel queue vis = some p ∧
        (Reachable g s t → IsWalkFrom g s t p ∧
          ∀ W, IsWalkFrom g s t W → walkWeight g p ≤ walkWeight g W) := by
  intro fuel
  induction fuel with
  | zero => intro queue vis sc _ hpot; omega
  | succ fuel ih =>
    intro queue vis sc inv hpot
    rw [astarLoop]
    cases hpop : popMin aEntryLt queue with
    | none =>
      refine ⟨[], rfl, ?_⟩
      intro hre
      obtain ⟨W, hW⟩ := hre
      obtain ⟨e, he, -, -⟩ := aInvS_cover inv hw hwf hch hW inv.notEnd
      rw [popMin_eq_none.mp hpop] at he
      cases he
    | some pr =>
      obtain ⟨⟨f, c, n, pa⟩, rest⟩ := pr
      dsimp only
      have hqne : queue ≠ [] := by
        intro h
        rw [h] at hpop
        exact Option.noConfusion ((popMin_eq_none.mpr rfl).symm.trans hpop)
      have hql : 1 ≤ queue.length := by
        cases queue with
        | nil => exact absurd rfl hqne
        | cons x xs => simp
      have hrl : rest.length = queue.length - 1 := popMin_length hpop
      have hmin : ∀ x ∈ queue, f ≤ x.1 := by
        intro x hx
        exact aEntryLt_false_f
          (findMin_min aEntryLt_irrefl aEntryLt_trans aEntryLt_total
            (popMin_some hpop).1 x hx)
      by_cases hvis : n ∈ vis
      · rw [if_pos hvis]
        refine ih rest vis sc ⟨?_, ?_, ?_, inv.settled, ?_, ?_, inv.notEnd⟩ ?_
        · exact fun e he => inv.inS e (popMin_rest_subset hpop he)
        · exact fun e he => inv.soundW e (popMin_rest_subset hpop he)
        · exact fun e he => inv.fval e (popMin_rest_subset hpop he)
        · intro v hv q hq hq1
          obtain ⟨e, he, he1, he2⟩ := inv.frontierS v hv q hq hq1
          refine ⟨e, popMin_mem_rest hpop he ?_, he1, he2⟩
          intro hcon
          rw [hcon] at he1
          exact hq1 (he1 ▸ hvis)
        · intro hs
          obtain ⟨e, he, he1, he2⟩ := inv.originS hs
          refine ⟨e, popMin_mem_rest hpop he ?_, he1, he2⟩
          intro hcon
          rw [hcon] at he1
          exact hs (he1 ▸ hvis)
        · omega
      · rw [if_neg hvis]
        have hpopmem := popMin_mem hpop
        have hnS : n ∈ insert s g.targets := inv.inS _ hpopmem
        have hwalk : IsWalkFrom g s n (pa ++ [n]) := (inv.soundW _ hpopmem).1
        have hwgt : walkWeight g (pa ++ [n]) = c := (inv.soundW _ hpopmem).2
        have hopt : ∀ W, IsWalkFrom g s n W → c ≤ walkWeight g W := by
          intro W hW
          obtain ⟨e, he, -, he2⟩ := aInvS_cover inv hw hwf hch hW hvis
          have hfe : f ≤ walkWeight g W + heuristic n t := le_trans (hmin e he) he2
          rcases inv.fval _ hpopmem with hf | ⟨-, hc0, -⟩
          · have : c + heuristic n t ≤ walkWeight g W + heuristic n t := by
              rw [← hf]; exact hfe
            linarith
          · have hc0' : c = 0 := hc0
            rw [hc0']
            exact walkWeight_nonneg hw W
        by_cases hnt : n = t
        · subst hnt
          rw [if_pos rfl]
          refine ⟨pa ++ [n], rfl, fun _ => ⟨hwalk, ?_⟩⟩
          intro W hW
          rw [hwgt]
          exact hopt W hW
        · rw [if_neg hnt]
          refine ih _ _ (fun v => if v = n then c else sc v)
            ⟨?_, ?_, ?_, ?_, ?_, ?_, ?_⟩ ?_
          · intro e he
            rcases List.mem_append.mp he with he | he
            · exact inv.inS e (popMin_rest_subset hpop he)
            · obtain ⟨q, hq, -, rfl⟩ := mem_aPushes.mp he
              exact Finset.mem_insert_of_mem (g.mem_targets_of_mem_adjOf hq)
          · intro e he
            rcases List.mem_append.mp he with he | he
            · exact inv.soundW e (popMin_rest_subset hpop he)
            · obtain ⟨q, hq, -, rfl⟩ := mem_aPushes.mp he
              refine ⟨isWalkFrom_snoc hwalk ⟨q, hq, rfl⟩, ?_⟩
              have hlast : (pa ++ [n]).getLast? = some n := List.getLast?_concat _
              rw [walkWeight_snoc q.1 hlast, hwgt, g.edgeWeight_of_mem hwf hq]
          · intro e he
            rcases List.mem_append.mp he with he | he
            · exact inv.fval e (popMin_rest_subset hpop he)
            · obtain ⟨q, hq, -, rfl⟩ := mem_aPushes.mp he
              exact Or.inl rfl
          · intro v hv W hW
            rcases Finset.mem_insert.mp hv with rfl | hv
            · rw [if_pos rfl]
              exact hopt W hW
            · have hvn : v ≠ n := fun h => hvis (h ▸ hv)
              rw [if_neg hvn]
              exact inv.settled v hv W hW
          · intro v hv q hq hq1
            rcases Finset.mem_insert.mp hv with rfl | hv
            · rw [if_pos rfl]
              refine ⟨(c + q.2 + heuristic q.1 t, c + q.2, q.1, pa ++ [v]),
                ?_, rfl, le_refl _⟩
              exact List.mem_append_right _ (mem_aPushes.mpr ⟨q, hq, hq1, rfl⟩)
            · have hvn : v ≠ n := fun h => hvis (h ▸ hv)
              rw [if_neg hvn]
              have hq1' : q.1 ∉ vis := fun h => hq1 (Finset.mem_insert_of_mem h)
              obtain ⟨e, he, he1, he2⟩ := inv.frontierS v hv q hq hq1'
              refine ⟨e, List.mem_append_left _ (popMin_mem_rest hpop he ?_), he1, he2⟩
              intro hcon
              rw [hcon] at he1
              exact hq1 (he1 ▸ Finset.mem_insert_self n vis)
          · intro hs
            have hs' : s ∉ vis := fun h => hs (Finset.mem_insert_of_mem h)
            obtain ⟨e, he, he1, he2⟩ := inv.originS hs'
            refine ⟨e, List.mem_append_left _ (popMin_mem_rest hpop he ?_), he1, he2⟩
            intro hcon
            rw [hcon] at he1
            exact hs (he1 ▸ Finset.mem_insert_self n vis)
          · exact fun h => hnt (by
              rcases Finset.mem_insert.mp h with h | h
              · exact h.symm
              · exact absurd h inv.notEnd)
          · have hsum : (1 + (g.adjOf n).length) +
                ∑ v ∈ ((insert s g.targets \ vis).erase n), (1 + (g.adjOf v).length) =
                ∑ v ∈ (insert s g.targets \ vis), (1 + (g.adjOf v).length) :=
              Finset.add_sum_erase _ (fun v => 1 + (g.adjOf v).length)
                (Finset.mem_sdiff.mpr ⟨hnS, hvis⟩)
            have hset : insert s g.targets \ insert n vis =
                (insert s g.targets \ vis).erase n := by
              ext x
              simp only [Finset.mem_sdiff, Finset.mem_insert, Finset.mem_erase]
              tauto
            rw [hset, List.length_append]
            have hpl : (List.filterMap
                (fun q => if q.1 ∈ insert n vis then none
                  else some ((c + q.2 + heuristic q.1 t, c + q.2, q.1, pa ++ [n]) : AEntry))
                (g.adjOf n)).length ≤ (g.adjOf n).length :=
              List.length_filterMap_le _ _
            omega

theorem aInvS_initial (g : Graph) (heuristic : Node → Node → ℚ) (s t : Node)
    (hh : 0 ≤ heuristic s t) :
    AInvS g heuristic s t (fun _ => 0) [(0, 0, s, [])] ∅ := by
  refine ⟨?_, ?_, ?_, ?_, ?_, ?_, ?_⟩
  · intro e he
    simp only [List.mem_singleton] at he
    subst he
    exact Finset.mem_insert_self s _
  · intro e he
    simp only [List.mem_singleton] at he
    subst he
    exact ⟨isWalkFrom_singleton g s, walkWeight_singleton g s⟩
  · intro e he
    simp only [List.mem_singleton] at he
    subst he
    exact Or.inr ⟨rfl, rfl, rfl⟩
  · intro v hv
    cases hv
  · intro v hv
    cases hv
  · intro _
    exact ⟨(0, 0, s, []), List.mem_singleton_self _, rfl, le_refl 0, hh⟩
  · exact Finset.not_mem_empty t

/-- On a non-negatively weighted well-formed graph with `t` reachable from
`s`, `astar` with a consistent non-negative heuristic returns a walk from
`s` to `t` of minimal total weight. -/
theorem astar_optimal {g : Graph} {heuristic : Node → Node → ℚ}
    (hw : g.Nonneg) (hwf : g.WF) {s t : Node}
    (hch : ConsistentHeuristic g heuristic t) (hr : Reachable g s t) :
    IsWalkFrom g s t (astar g s t heuristic) ∧
      ∀ W, IsWalkFrom g s t W →
        walkWeight g (astar g s t heuristic) ≤ walkWeight g W := by
  obtain ⟨p, hp, h⟩ :=
    astarLoop_strong g heuristic hw hwf s t hch (astarFuel g s) [(0, 0, s, [])] ∅
      (fun _ => 0) (aInvS_initial g heuristic s t (hch.1 s))
      (by unfold astarFuel
          simp only [List.length_singleton, Finset.sdiff_empty]
          omega)
  unfold astar
  rw [hp]
  exact h hr

/-! ## `astar` with the default heuristic simulates `dijkstra` exactly.
The default heuristic is constant, so `f = cost + 1` for every pushed entry
and the tuple order on `(f, cost, node, path)` coincides with the order on
`(cost, node, path)`. -/

/-- Map a `dijkstra` heap entry to the corresponding `astar` entry under the
constant-one default heuristic. -/
def dEntryToA (e : DEntry) : AEntry := (e.1 + 1, e.1, e.2.1, e.2.2)

theorem dEntryToA_injective : Function.Injective dEntryToA := by
  intro a b h
  obtain ⟨c1, n1, p1⟩ := a
  obtain ⟨c2, n2, p2⟩ := b
  simp only [dEntryToA, Prod.mk.injEq] at h
  obtain ⟨-, h2, h3, h4⟩ := h
  simp [h2, h3, h4]

theorem aEntryLt_dEntryToA (e1 e2 : DEntry) :
    aEntryLt (dEntryToA e1) (dEntryToA e2) = dEntryLt e1 e2 := by
  obtain ⟨c1, n1, p1⟩ := e1
  obtain ⟨c2, n2, p2⟩ := e2
  simp only [aEntryLt, dEntryLt, dEntryToA, pairLt, qLtB]
  by_cases h : c1 = c2
  · subst h
    simp
  · have h1 : (c1 + 1 == c2 + 1) = false := by
      simp only [beq_eq_false_iff_ne, ne_eq, add_left_inj]
      exact h
    have h2 : (c1 == c2) = false := by
      simp only [beq_eq_false_iff_ne, ne_eq]
      exact h
    have h3 : decide (c1 + 1 < c2 + 1) = decide (c1 < c2) := by
      simp [add_lt_add_iff_right]
    simp [h1, h2, h3]

theorem findMin_map {φ : α → β} {lt1 : α → α → Bool} {lt2 : β → β → Bool}
    (hord : ∀ a b, lt2 (φ a) (φ b) = lt1 a b) :
    ∀ l : List α, findMin lt2 (l.map φ) = (findMin lt1 l).map φ := by
  intro l
  induction l with
  | nil => rfl
  | cons x xs ih =>
    rw [List.map_cons, findMin, findMin, ih]
    cases hxs : findMin lt1 xs with
    | none => rfl
    | some m =>
      simp only [Option.map_some']
      rw [hord m x]
      by_cases h : lt1 m x = true
      · rw [if_pos h, if_pos h]
        rfl
      · rw [if_neg h, if_neg h]
        rfl

theorem map_erase_of_injective [BEq α] [LawfulBEq α] [BEq β] [LawfulBEq β]
    {φ : α → β} (hinj : Function.Injective φ) (a : α) :
    ∀ l : List α, (l.map φ).erase (φ a) = (l.erase a).map φ := by
  intro l
  induction l with
  | nil => rfl
  | cons x xs ih =>
    rw [List.map_cons, List.erase_cons, List.erase_cons]
    by_cases h : x = a
    · subst h
      simp
    · have h1 : (φ x == φ a) = false := by
        simp only [beq_eq_false_iff_ne, ne_eq]
        exact fun hc => h (hinj hc)
      have h2 : (x == a) = false := by simp [h]
      rw [h1, h2]
      simp only [Bool.false_eq_true, if_false, List.map_cons, ih]

theorem popMin_map [BEq α] [LawfulBEq α] [BEq β] [LawfulBEq β]
    {φ : α → β} {lt1 : α → α → Bool} {lt2 : β → β → Bool}
    (hinj : Function.Injective φ) (hord : ∀ a b, lt2 (φ a) (φ b) = lt1 a b)
    (l : List α) :
    popMin lt2 (l.map φ) = (popMin lt1 l).map fun pr => (φ pr.1, pr.2.map φ) := by
  unfold popMin
  rw [findMin_map hord]
  cases findMin lt1 l with
  | none => rfl
  | some m =>
    simp only [Option.map_some']
    rw [map_erase_of_injective hinj]

theorem popMin_singleton [BEq α] [LawfulBEq α] (lt : α → α → Bool) (e : α) :
    popMin lt [e] = some (e, []) := by
  simp [popMin, findMin, List.erase_cons_head]

theorem map_dEntryToA_pushes (g : Graph) (t : Node) (c : ℚ) (n : Node)
    (pa : List Node) (vis : Finset Node) :
    ((g.adjOf n).filterMap fun q =>
        if q.1 ∈ vis then none else some ((c + q.2, q.1, pa) : DEntry)).map dEntryToA =
      (g.adjOf n).filterMap fun q =>
        if q.1 ∈ vis then none
        else some ((c + q.2 + astarDefaultHeuristic q.1 t, c + q.2, q.1, pa) : AEntry) := by
  rw [List.map_filterMap]
  apply List.filterMap_congr
  intro q _
  by_cases hq : q.1 ∈ vis
  · rw [if_pos hq, if_pos hq]
    rfl
  · rw [if_neg hq, if_neg hq]
    simp [dEntryToA, astarDefaultHeuristic]

/-- `astarLoop` under the default heuristic performs exactly the same
iterations as `dijkstraLoop`, on entry-wise corresponding queues. -/
theorem astarLoop_default_simulates (g : Graph) (t : Node) :
    ∀ (fuel : ℕ) (queue : List DEntry) (vis : Finset Node),
      astarLoop g astarDefaultHeuristic t fuel (queue.map dEntryToA) vis =
        dijkstraLoop g t fuel queue vis := by
  intro fuel
  induction fuel with
  | zero => intro queue vis; rfl
  | succ fuel ih =>
    intro queue vis
    rw [astarLoop, dijkstraLoop]
    rw [popMin_map dEntryToA_injective aEntryLt_dEntryToA]
    cases hpop : popMin dEntryLt queue with
    | none => rfl
    | some pr =>
      obtain ⟨⟨c, n, pa⟩, rest⟩ := pr
      dsimp only [Option.map_some', dEntryToA]
      by_cases hvis : n ∈ vis
      · rw [if_pos hvis, if_pos hvis]
        exact ih rest vis
      · rw [if_neg hvis, if_neg hvis]
        by_cases hnt : n = t
        · rw [if_pos hnt, if_pos hnt]
        · rw [if_neg hnt, if_neg hnt]
          rw [← ih (rest ++ (g.adjOf n).filterMap fun q =>
              if q.1 ∈ insert n vis then none
              else some ((c + q.2, q.1, pa ++ [n]) : DEntry)) (insert n vis)]
          rw [List.map_append, map_dEntryToA_pushes]

/-- `astar` with its default (constant-one) heuristic returns exactly the
same node sequence as `dijkstra`, on every input. -/
theorem astar_default_eq_dijkstra (g : Graph) (s t : Node) :
    astar g s t astarDefaultHeuristic = dijkstra g s t := by
  unfold astar dijkstra astarFuel dijkstraFuel
  rw [show (∑ v ∈ insert s g.targets, (1 + (g.adjOf v).length)) + 2 =
      ((∑ v ∈ insert s g.targets, (1 + (g.adjOf v).length)) + 1) + 1 from rfl]
  rw [astarLoop, dijkstraLoop, popMin_singleton, popMin_singleton]
  dsimp only
  rw [if_neg (Finset.not_mem_empty s), if_neg (Finset.not_mem_empty s)]
  by_cases hst : s = t
  · rw [if_pos hst, if_pos hst]
  · rw [if_neg hst, if_neg hst]
    rw [← astarLoop_default_simulates g t _
      ([] ++ (g.adjOf s).filterMap fun q =>
        if q.1 ∈ insert s ∅ then none
        else some ((0 + q.2, q.1, [] ++ [s]) : DEntry)) (insert s ∅)]
    rw [List.map_append, map_dEntryToA_pushes]
    rfl

/-! ## Trivial path on start == end -/

theorem dijkstra_self (g : Graph) (s : Node) : dijkstra g s s = [s] := by
  unfold dijkstra dijkstraFuel
  rw [show (∑ v ∈ insert s g.targets, (1 + (g.adjOf v).length)) + 2 =
      ((∑ v ∈ insert s g.targets, (1 + (g.adjOf v).length)) + 1) + 1 from rfl]
  rw [dijkstraLoop, popMin_singleton]
  dsimp only
  rw [if_neg (Finset.not_mem_empty s), if_pos rfl]
  rfl

theorem astar_self (g : Graph) (s : Node) (heuristic : Node → Node → ℚ) :
    astar g s s heuristic = [s] := by
  unfold astar astarFuel
  rw [show (∑ v ∈ insert s g.targets, (1 + (g.adjOf v).length)) + 2 =
      ((∑ v ∈ insert s g.targets, (1 + (g.adjOf v).length)) + 1) + 1 from rfl]
  rw [astarLoop, popMin_singleton]
  dsimp only
  rw [if_neg (Finset.not_mem_empty s), if_pos rfl]
  rfl

/-! ## An admissible but inconsistent heuristic on which `astar` is
suboptimal.  The source's A* never reopens a node in `visited`, so mere
admissibility does not guarantee optimality. -/

/-- Admissibility in the sense of the specification: the heuristic is a
non-negative cost estimate that never exceeds the true remaining cost (the
weight of any walk to the goal). -/
def Admissible (g : Graph) (heuristic : Node → Node → ℚ) (t : Node) : Prop :=
  (∀ n, 0 ≤ heuristic n t) ∧
    ∀ n W, IsWalkFrom g n t W → heuristic n t ≤ walkWeight g W

/-- Counterexample graph: edges 0→1 (weight 3), 0→2 (weight 1), 2→1
(weight 1), 1→3 (weight 2).  Cheapest 0→3 walk is 0,2,1,3 of weight 4. -/
def gC3 : Graph := ⟨[(0, [(1, 3), (2, 1)]), (2, [(1, 1)]), (1, [(3, 2)])]⟩

/-- Counterexample heuristic towards goal 3: 3 at node 2, 0 elsewhere.
Admissible (the only walk 2→3 has weight exactly 3) but not consistent
across the edge 2→1 (3 > 1 + 0). -/
def hC3 : Node → Node → ℚ := fun n _ => if n = 2 then 3 else 0

theorem gC3_nonneg : gC3.Nonneg := by
  intro p hp q hq
  fin_cases hp <;> fin_cases hq <;> norm_num

theorem Graph.wf_of_keys (g : Graph) (h : ∀ p ∈ g.adj, (p.2.map Prod.fst).Nodup) :
    g.WF := by
  intro n
  rcases g.adjOf_cases n with h0 | ⟨p, hp, -, heq⟩
  · rw [h0]; simp
  · rw [heq]; exact h p hp

theorem gC3_wf : gC3.WF := by
  apply Graph.wf_of_keys
  intro p hp
  fin_cases hp <;> simp

theorem isWalkFrom_single_inv {g : Graph} {a b x : Node}
    (hw : IsWalkFrom g a b [x]) : x = a ∧ a = b := by
  obtain ⟨h1, h2, -⟩ := hw
  simp only [List.head?_cons, Option.some.injEq] at h1
  simp only [List.getLast?_singleton, Option.some.injEq] at h2
  exact ⟨h1, h1 ▸ h2⟩

theorem gC3_hasEdge_two {y : Node} (h : gC3.HasEdge 2 y) : y = 1 := by
  obtain ⟨q, hq, hq1⟩ := h
  have : gC3.adjOf 2 = [(1, 1)] := rfl
  rw [this] at hq
  simp only [List.mem_singleton] at hq
  rw [hq] at hq1
  exact hq1.symm

theorem gC3_hasEdge_one {y : Node} (h : gC3.HasEdge 1 y) : y = 3 := by
  obtain ⟨q, hq, hq1⟩ := h
  have : gC3.adjOf 1 = [(3, 2)] := rfl
  rw [this] at hq
  simp only [List.mem_singleton] at hq
  rw [hq] at hq1
  exact hq1.symm

theorem gC3_hasEdge_three {y : Node} (h : gC3.HasEdge 3 y) : False := by
  obtain ⟨q, hq, -⟩ := h
  have : gC3.adjOf 3 = [] := rfl
  rw [this] at hq
  cases hq

/-- Every walk from 2 to 3 in `gC3` costs at least 3 (it is exactly
2,1,3). -/
theorem gC3_walk_two_three : ∀ W, IsWalkFrom gC3 2 3 W → 3 ≤ walkWeight gC3 W := by
  intro W hW
  match W with
  | [] => cases hW.1
  | [x] =>
    obtain ⟨-, hab⟩ := isWalkFrom_single_inv hW
    cases hab
  | x :: y :: rest =>
    obtain ⟨hx, hxy, hrest⟩ := isWalkFrom_cons_cons_inv hW
    subst hx
    have hy : y = 1 := gC3_hasEdge_two hxy
    subst hy
    match rest with
    | [] =>
      obtain ⟨-, hab⟩ := isWalkFrom_single_inv hrest
      cases hab
    | z :: rest2 =>
      obtain ⟨-, hyz, hrest2⟩ := isWalkFrom_cons_cons_inv hrest
      have hz : z = 3 := gC3_hasEdge_one hyz
      subst hz
      match rest2 with
      | [] =>
        rw [walkWeight_cons_cons, walkWeight_cons_cons, walkWeight_singleton]
        norm_num [Graph.edgeWeight, Graph.adjOf, gC3]
      | w :: rest3 =>
        obtain ⟨-, hzw, -⟩ := isWalkFrom_cons_cons_inv hrest2
        exact absurd hzw (fun h => gC3_hasEdge_three h)

theorem hC3_admissible : Admissible gC3 hC3 3 := by
  constructor
  · intro n
    unfold hC3
    by_cases h : n = 2 <;> simp [h]
  · intro n W hW
    unfold hC3
    by_cases h : n = 2
    · subst h
      simp only [if_pos rfl]
      exact gC3_walk_two_three W hW
    · rw [if_neg h]
      exact walkWeight_nonneg gC3_nonneg W

/-! ## `apply_dynamic_speed` (src/features/dynamic_speed.py) -/

/-- The edge attribute dictionary as read and written by
`apply_dynamic_speed`: the keys `speed`, `distance`, `weight`; `none` models
an absent key, to which the source's `.get` defaults apply. -/
structure EdgeData where
  speed : Option ℚ
  distance : Option ℚ
  weight : Option ℚ
deriving DecidableEq

/-- The congestion windows: Python `7 <= hour <= 9 or 17 <= hour <= 19`. -/
def isPeakHour (hour : ℤ) : Prop :=
  (7 ≤ hour ∧ hour ≤ 9) ∨ (17 ≤ hour ∧ hour ≤ 19)

instance (hour : ℤ) : Decidable (isPeakHour hour) :=
  inferInstanceAs (Decidable ((7 ≤ hour ∧ hour ≤ 9) ∨ (17 ≤ hour ∧ hour ≤ 19)))

/-- The per-edge body of `apply_dynamic_speed`'s loop:
`base_speed = data.get("speed", 40)`; in a peak hour
`data["speed"] = base_speed * 0.6`, else `data["speed"] = base_speed`;
`data["weight"] = data.get("distance", 1) / data["speed"]`. -/
def transformEdgeData (hour : ℤ) (d : EdgeData) : EdgeData :=
  let base := d.speed.getD 40
  let sp := if isPeakHour hour then base * (0.6 : ℚ) else base
  let dist := d.distance.getD 1
  ⟨some sp, d.distance, some (dist / sp)⟩

/-- A `networkx` graph as seen by `apply_dynamic_speed`: the edge list
`graph.edges(data=True)` of `(u, v, data)` triples. -/
abbrev DynGraph := List (Node × Node × EdgeData)

/-- `apply_dynamic_speed(graph, hour)` from src/features/dynamic_speed.py.
The Python function mutates each edge's `data` dictionary in place and then
does `return graph` — the same object.  In this state-passing embedding the
result is the pair (returned graph, state of the input graph object after
the call); the source aliases them, so both components are the mutated
graph. -/
def apply_dynamic_speed (graph : DynGraph) (hour : ℤ) : DynGraph × DynGraph :=
  let updated := graph.map fun e => (e.1, e.2.1, transformEdgeData hour e.2.2)
  (updated, updated)

/-! ## `assign_orders` (src/app.py lines 255-283) -/

/-- A delivery order record. -/
structure Order where
  id : ℕ
  destination : Node
  weight : ℚ
  priority : ℤ
  deadline : ℤ
deriving DecidableEq

/-- Reason codes of the unassigned-order records. -/
inductive UnassignedReason
  | capacity
  | vehicle_limit
deriving DecidableEq

/-- An unassigned-order record `{'id': ..., 'reason': ...}`. -/
structure UnassignedRecord where
  id : ℕ
  reason : UnassignedReason
deriving DecidableEq

/-- The comparison realized by Python's stable
`sorted(..., key=lambda x: (-x['priority'], x['deadline']))`. -/
def orderLE (a b : Order) : Bool :=
  decide (b.priority < a.priority ∨ (a.priority = b.priority ∧ a.deadline ≤ b.deadline))

/-- The greedy packing loop of `assign_orders`: state is
`(vehicles, current_vehicle, current_load)`. -/
def assignLoop (cap : ℚ) :
    List Order → List (List Order) → List Order → ℚ →
      List (List Order) × List Order × ℚ
  | [], vehicles, current, load => (vehicles, current, load)
  | o :: os, vehicles, current, load =>
    if load + o.weight ≤ cap then
      assignLoop cap os vehicles (current ++ [o]) (load + o.weight)
    else
      assignLoop cap os (vehicles ++ [current]) [o] o.weight

/-- `assign_orders(orders, vehicle_capacity)` — the second (tracking)
definition in src/app.py, lines 255-283, which shadows the earlier draft.
Returns `(vehicles, unassigned_records)`. -/
def assign_orders (orders : List Order) (cap : ℚ) :
    List (List Order) × List UnassignedRecord :=
  let valid := orders.filter fun o => decide (o.weight ≤ cap)
  let invalid : List UnassignedRecord :=
    (orders.filter fun o => decide (cap < o.weight)).map
      fun o => ⟨o.id, UnassignedReason.capacity⟩
  let sorted := valid.mergeSort orderLE
  let res := assignLoop cap sorted [] [] 0
  let vehicles := if res.2.1 = [] then res.1 else res.1 ++ [res.2.1]
  let assigned := vehicles.flatten.map fun o => o.id
  let unassigned : List UnassignedRecord :=
    (sorted.filter fun o => decide (o.id ∉ assigned)).map
      fun o => ⟨o.id, UnassignedReason.vehicle_limit⟩
  (vehicles, invalid ++ unassigned)

/-! ## The route-chaining loop of `main` (src/app.py lines 394-418) -/

/-- The inner `for dest in sorted(destinations)` loop of `main`: starting
from `path = [0]`, for each destination call the path finder from `path[-1]`
and append `next_path[1:]`.  The path finder `pf` yields `none` where
`networkx` raises `NetworkXNoPath`; the exception propagates (there is no
`try` in `main`'s loop), which monadically makes the whole computation
`none`. -/
def routeLegs (pf : Node → Node → Option (List Node)) :
    List Node → List Node → Option (List Node)
  | path, [] => some path
  | path, d :: ds =>
    match pf (path.getLastD 0) d with
    | none => none
    | some next => routeLegs pf (path ++ next.drop 1) ds

/-- One vehicle's route: destinations visited in ascending order
(`sorted(destinations)`). -/
def planVehicleRoute (pf : Node → Node → Option (List Node))
    (vehicle : List Order) : Option (List Node) :=
  routeLegs pf [0]
    ((vehicle.map fun o => o.destination).mergeSort fun a b => decide (a ≤ b))

/-- The outer `for vehicle in assigned_vehicles` loop of `main`: an uncaught
`NetworkXNoPath` exception in any vehicle's route computation aborts the
whole loop, so no route list is produced at all. -/
def computeAllRoutes (pf : Node → Node → Option (List Node))
    (vehicles : List (List Order)) : Option (List (List Node)) :=
  vehicles.mapM (planVehicleRoute pf)

/-- Total weight of a vehicle load. -/
def loadWeight (l : List Order) : ℚ := (l.map fun o => o.weight).sum

/-- Invariant of the greedy packing loop: closed loads stay under capacity,
the running load is the weight of the current vehicle and under capacity,
and no order is lost or duplicated (the flattened output is exactly the
already-packed orders followed by the remaining input). -/
theorem assignLoop_spec (cap : ℚ) :
    ∀ (os : List Order) (vehicles : List (List Order)) (current : List Order) (load : ℚ),
      (∀ l ∈ vehicles, loadWeight l ≤ cap) →
      loadWeight current = load →
      load ≤ cap →
      (∀ o ∈ os, o.weight ≤ cap) →
      (∀ l ∈ (assignLoop cap os vehicles current load).1, loadWeight l ≤ cap) ∧
      loadWeight (assignLoop cap os vehicles current load).2.1 =
        (assignLoop cap os vehicles current load).2.2 ∧
      (assignLoop cap os vehicles current load).2.2 ≤ cap ∧
      (assignLoop cap os vehicles current load).1.flatten ++
          (assignLoop cap os vehicles current load).2.1 =
        vehicles.flatten ++ current ++ os := by
  intro os
  induction os with
  | nil =>
    intro vehicles current load h1 h2 h3 _
    exact ⟨h1, h2, h3, by simp [assignLoop]⟩
  | cons o os ih =>
    intro vehicles current load h1 h2 h3 h4
    rw [assignLoop]
    by_cases hfit : load + o.weight ≤ cap
    · rw [if_pos hfit]
      have h2' : loadWeight (current ++ [o]) = load + o.weight := by
        unfold loadWeight at h2 ⊢
        simp [h2]
      obtain ⟨a, b, c, d⟩ := ih vehicles (current ++ [o]) (load + o.weight)
        h1 h2' hfit (fun o' ho' => h4 o' (List.mem_cons_of_mem o ho'))
      refine ⟨a, b, c, ?_⟩
      rw [d]
      simp
    · rw [if_neg hfit]
      have h1' : ∀ l ∈ vehicles ++ [current], loadWeight l ≤ cap := by
        intro l hl
        rcases List.mem_append.mp hl with hl | hl
        · exact h1 l hl
        · simp only [List.mem_singleton] at hl
          subst hl
          rw [h2]
          exact h3
      have h2' : loadWeight [o] = o.weight := by simp [loadWeight]
      obtain ⟨a, b, c, d⟩ := ih (vehicles ++ [current]) [o] o.weight
        h1' h2' (h4 o (List.mem_cons_self o os))
        (fun o' ho' => h4 o' (List.mem_cons_of_mem o ho'))
      refine ⟨a, b, c, ?_⟩
      rw [d]
      simp

theorem decide_lt_eq_not_le (cap w : ℚ) :
    decide (cap < w) = !decide (w ≤ cap) := by
  by_cases h : w ≤ cap
  · simp [h, not_lt.mpr h]
  · simp [h, not_le.mp h]

/-- The full behavior of `assign_orders` needed by the partition claim:
every produced load is within capacity; the loads' contents are exactly
(a permutation of) the orders that fit; the unassigned records are exactly
the `capacity` records of the orders that do not fit (the `vehicle_limit`
branch is unreachable); and every input order lands in exactly one of the
two (as multisets). -/
theorem assign_orders_spec (orders : List Order) (cap : ℚ) (hcap : 0 ≤ cap) :
    (∀ l ∈ (assign_orders orders cap).1, loadWeight l ≤ cap) ∧
    ((assign_orders orders cap).1.flatten).Perm
      (orders.filter fun o => decide (o.weight ≤ cap)) ∧
    (assign_orders orders cap).2 =
      (orders.filter fun o => decide (cap < o.weight)).map
        (fun o => ⟨o.id, UnassignedReason.capacity⟩) ∧
    ((assign_orders orders cap).1.flatten ++
        orders.filter fun o => decide (cap < o.weight)).Perm orders := by
  unfold assign_orders
  dsimp only
  set valid := orders.filter fun o => decide (o.weight ≤ cap) with hvalid
  set sorted := valid.mergeSort orderLE with hsorted
  have hperm : sorted.Perm valid := List.mergeSort_perm valid orderLE
  have hsortedval : ∀ o ∈ sorted, o.weight ≤ cap := by
    intro o ho
    have hmem := hperm.mem_iff.mp ho
    rw [hvalid] at hmem
    exact of_decide_eq_true (List.mem_filter.mp hmem).2
  obtain ⟨a, b, c, d⟩ := assignLoop_spec cap sorted [] [] 0
    (by intro l hl; cases hl) (by simp [loadWeight]) hcap hsortedval
  simp only [List.flatten_nil, List.nil_append] at d
  set res := assignLoop cap sorted [] [] 0 with hres
  set vehicles := if res.2.1 = [] then res.1 else res.1 ++ [res.2.1] with hveh
  have hflat : vehicles.flatten = sorted := by
    rw [hveh]
    by_cases hc : res.2.1 = []
    · rw [if_pos hc]
      rw [hc] at d
      simpa using d
    · rw [if_neg hc]
      rw [List.flatten_append]
      simpa using d
  have hloads : ∀ l ∈ vehicles, loadWeight l ≤ cap := by
    intro l hl
    rw [hveh] at hl
    by_cases hc : res.2.1 = []
    · rw [if_pos hc] at hl
      exact a l hl
    · rw [if_neg hc] at hl
      rcases List.mem_append.mp hl with hl | hl
      · exact a l hl
      · simp only [List.mem_singleton] at hl
        subst hl
        rw [b]
        exact c
  have hunassigned : (sorted.filter fun o =>
      decide (o.id ∉ vehicles.flatten.map fun o => o.id)) = [] := by
    apply List.filter_eq_nil_iff.mpr
    intro o ho
    simp only [decide_eq_true_eq, not_not]
    rw [hflat]
    exact List.mem_map_of_mem _ ho
  refine ⟨hloads, ?_, ?_, ?_⟩
  · rw [hflat]
    exact hperm
  · rw [hunassigned]
    simp
  · rw [hflat]
    refine List.Perm.trans (List.Perm.append hperm (List.Perm.refl _)) ?_
    have hfilter : (orders.filter fun o => decide (cap < o.weight)) =
        orders.filter fun o => !decide (o.weight ≤ cap) := by
      apply List.filter_congr
      intro o _
      exact decide_lt_eq_not_le cap o.weight
    rw [hvalid, hfilter]
    exact List.filter_append_perm _ orders

/-- Monadic propagation in `main`'s vehicle loop: a failing vehicle aborts
the whole route computation. -/
theorem computeAllRoutes_fail {pf : Node → Node → Option (List Node)}
    {vehicles : List (List Order)} {v : List Order}
    (hv : v ∈ vehicles) (hfail : planVehicleRoute pf v = none) :
    computeAllRoutes pf vehicles = none := by
  unfold computeAllRoutes
  induction vehicles with
  | nil => cases hv
  | cons x xs ih =>
    rw [List.mapM_cons]
    rcases List.mem_cons.mp hv with rfl | hv'
    · rw [hfail]
      rfl
    · cases hx : planVehicleRoute pf x with
      | none => rfl
      | some r =>
        rw [ih hv']
        rfl

/-! ## Concrete instances for counterexamples and witnesses -/

/-- The specification's concrete scenario graph: nodes 0,1,2 and edges
0→1, 1→2 of time-cost 10/50 = 1/5 each. -/
def gW : Graph := ⟨[(0, [(1, 1/5)]), (1, [(2, 1/5)])]⟩

theorem gW_nonneg : gW.Nonneg := by
  intro p hp q hq
  fin_cases hp <;> fin_cases hq <;> norm_num

theorem gW_wf : gW.WF := by
  apply Graph.wf_of_keys
  intro p hp
  fin_cases hp <;> simp

theorem gW_walk : IsWalkFrom gW 0 2 [0, 1, 2] := by
  refine ⟨rfl, rfl, ?_⟩
  rw [List.chain'_cons, List.chain'_cons]
  refine ⟨⟨(1, 1/5), ?_, rfl⟩, ⟨(2, 1/5), ?_, rfl⟩, List.chain'_singleton 2⟩
  · show (1, 1/5) ∈ gW.adjOf 0
    rw [show gW.adjOf 0 = [(1, 1/5)] from rfl]
    exact List.mem_singleton_self _
  · show (2, 1/5) ∈ gW.adjOf 1
    rw [show gW.adjOf 1 = [(2, 1/5)] from rfl]
    exact List.mem_singleton_self _

theorem gW_reachable : Reachable gW 0 2 := ⟨[0, 1, 2], gW_walk⟩

theorem gW_zero_consistent : ConsistentHeuristic gW (fun _ _ => 0) 2 := by
  constructor
  · intro n
    norm_num
  · intro u q hq
    have h0 : (0 : ℚ) ≤ q.2 := gW.nonneg_adjOf gW_nonneg hq
    linarith

/-- The empty graph. -/
def gEmpty : Graph := ⟨[]⟩

theorem gEmpty_not_reachable : ¬ Reachable gEmpty 0 1 := by
  rintro ⟨W, hW⟩
  match W with
  | [] => cases hW.1
  | [x] =>
    obtain ⟨hxa, hab⟩ := isWalkFrom_single_inv hW
    cases hab
  | x :: y :: rest =>
    obtain ⟨-, hxy, -⟩ := isWalkFrom_cons_cons_inv hW
    obtain ⟨q, hq, -⟩ := hxy
    have : gEmpty.adjOf x = [] := rfl
    rw [this] at hq
    cases hq

theorem gC3_reachable : Reachable gC3 0 3 := by
  refine ⟨[0, 1, 3], rfl, rfl, ?_⟩
  rw [List.chain'_cons, List.chain'_cons]
  refine ⟨⟨(1, 3), ?_, rfl⟩, ⟨(3, 2), ?_, rfl⟩, List.chain'_singleton 3⟩
  · show (1, 3) ∈ gC3.adjOf 0
    rw [show gC3.adjOf 0 = [(1, 3), (2, 1)] from rfl]
    exact List.mem_cons_self _ _
  · show (3, 2) ∈ gC3.adjOf 1
    rw [show gC3.adjOf 1 = [(3, 2)] from rfl]
    exact List.mem_singleton_self _

theorem gC3_walk_0213 : IsWalkFrom gC3 0 3 [0, 2, 1, 3] := by
  refine ⟨rfl, rfl, ?_⟩
  rw [List.chain'_cons, List.chain'_cons, List.chain'_cons]
  refine ⟨⟨(2, 1), ?_, rfl⟩, ⟨(1, 1), ?_, rfl⟩, ⟨(3, 2), ?_, rfl⟩,
    List.chain'_singleton 3⟩
  · show (2, 1) ∈ gC3.adjOf 0
    rw [show gC3.adjOf 0 = [(1, 3), (2, 1)] from rfl]
    exact List.mem_cons_of_mem _ (List.mem_singleton_self _)
  · show (1, 1) ∈ gC3.adjOf 2
    rw [show gC3.adjOf 2 = [(1, 1)] from rfl]
    exact List.mem_singleton_self _
  · show (3, 2) ∈ gC3.adjOf 1
    rw [show gC3.adjOf 1 = [(3, 2)] from rfl]
    exact List.mem_singleton_self _

theorem gC3_weight_013 : walkWeight gC3 [0, 1, 3] = 5 := by
  rw [walkWeight_cons_cons, walkWeight_cons_cons, walkWeight_singleton]
  rw [show gC3.edgeWeight 0 1 = 3 from rfl, show gC3.edgeWeight 1 3 = 2 from rfl]
  norm_num

theorem gC3_weight_0213 : walkWeight gC3 [0, 2, 1, 3] = 4 := by
  rw [walkWeight_cons_cons, walkWeight_cons_cons, walkWeight_cons_cons,
    walkWeight_singleton]
  rw [show gC3.edgeWeight 0 2 = 1 from rfl, show gC3.edgeWeight 2 1 = 1 from rfl,
    show gC3.edgeWeight 1 3 = 2 from rfl]
  norm_num

/-- The concrete run of `astar` on the counterexample: it settles node 1 via
the direct edge 0→1 (f = 3) before node 2 (f = 1 + 3 = 4), and returns the
suboptimal path 0,1,3 of weight 5. -/
theorem gC3_astar_run : astar gC3 0 3 hC3 = [0, 1, 3] := by
  norm_num [astar, astarLoop, popMin, findMin, aEntryLt, pairLt, qLtB, natLtB,
    listLt, Graph.adjOf, hC3, show astarFuel gC3 0 = 10 from by decide, List.erase]

/-- A path finder failing exactly on the leg 0→5 (destination 5 unreachable
from the depot), succeeding elsewhere. -/
def pfC6 : Node → Node → Option (List Node) := fun a b =>
  if a = 0 ∧ b = 5 then none else some [a, b]

/-- An order for the unreachable destination 5. -/
def oC6a : Order := ⟨1, 5, 1, 1, 1⟩

/-- An order for the reachable destination 3. -/
def oC6b : Order := ⟨2, 3, 1, 1, 1⟩

theorem pfC6_fail : planVehicleRoute pfC6 [oC6a] = none := by
  simp [planVehicleRoute, routeLegs, pfC6, oC6a, List.mergeSort_singleton]

theorem pfC6_ok : planVehicleRoute pfC6 [oC6b] = some [0, 3] := by
  simp [planVehicleRoute, routeLegs, pfC6, oC6b, List.mergeSort_singleton]

theorem oC6a_mem : [oC6a] ∈ [[oC6a], [oC6b]] := List.mem_cons_self _ _

/-- A one-edge graph with speed 40 and distance 12. -/
def gDyn : DynGraph := [(0, 1, ⟨some 40, some 12, none⟩)]

theorem isPeakHour_eight : isPeakHour 8 := by norm_num [isPeakHour]

/-! ## The claims -/

/-- C1: for every finite directed graph with non-negative edge weights
(dictionary-shaped adjacency) and every pair (start, end) with end reachable
from start, `dijkstra` returns a walk from start to end whose total weight
is minimal among all walks from start to end. -/
theorem claim_C1_dijkstra_optimal (g : Graph) (s t : Node)
    (hw : g.Nonneg) (hwf : g.WF) (hr : Reachable g s t) :
    IsWalkFrom g s t (dijkstra g s t) ∧
      ∀ W, IsWalkFrom g s t W → walkWeight g (dijkstra g s t) ≤ walkWeight g W :=
  dijkstra_optimal hw hwf hr

/-- Witness for C1: the specification's concrete scenario graph
0→1→2 with time-cost 1/5 per edge. -/
theorem claim_C1_witness :
    gW.Nonneg ∧ gW.WF ∧ Reachable gW 0 2 ∧
      (IsWalkFrom gW 0 2 (dijkstra gW 0 2) ∧
        ∀ W, IsWalkFrom gW 0 2 W → walkWeight gW (dijkstra gW 0 2) ≤ walkWeight gW W) :=
  ⟨gW_nonneg, gW_wf, gW_reachable,
    claim_C1_dijkstra_optimal gW 0 2 gW_nonneg gW_wf gW_reachable⟩

/-- C2: for every graph and reachable pair, the node sequence returned by
`dijkstra`, and likewise by `astar` (any heuristic), is a valid walk from
start to end — it begins at start, ends at end, consecutive nodes are joined
by existing edges — and its total weight is the sum of the individual edge
weights along it. -/
theorem claim_C2_returned_walks (g : Graph) (s t : Node)
    (heuristic : Node → Node → ℚ) (hr : Reachable g s t) :
    (IsWalkFrom g s t (dijkstra g s t) ∧
      walkWeight g (dijkstra g s t) =
        (((dijkstra g s t).zip (dijkstra g s t).tail).map
          fun q => g.edgeWeight q.1 q.2).sum) ∧
    (IsWalkFrom g s t (astar g s t heuristic) ∧
      walkWeight g (astar g s t heuristic) =
        (((astar g s t heuristic).zip (astar g s t heuristic).tail).map
          fun q => g.edgeWeight q.1 q.2).sum) := by
  constructor
  · by_cases h : dijkstra g s t = []
    · exact absurd hr ((dijkstra_cases g s t).1 h)
    · exact ⟨((dijkstra_cases g s t).2 h).1, rfl⟩
  · by_cases h : astar g s t heuristic = []
    · exact absurd hr ((astar_cases g s t heuristic).1 h)
    · exact ⟨((astar_cases g s t heuristic).2 h).1, rfl⟩

/-- Witness for C2: the concrete scenario graph, with the default
heuristic. -/
theorem claim_C2_witness :
    Reachable gW 0 2 ∧
      ((IsWalkFrom gW 0 2 (dijkstra gW 0 2) ∧
        walkWeight gW (dijkstra gW 0 2) =
          (((dijkstra gW 0 2).zip (dijkstra gW 0 2).tail).map
            fun q => gW.edgeWeight q.1 q.2).sum) ∧
      (IsWalkFrom gW 0 2 (astar gW 0 2 astarDefaultHeuristic) ∧
        walkWeight gW (astar gW 0 2 astarDefaultHeuristic) =
          (((astar gW 0 2 astarDefaultHeuristic).zip
              (astar gW 0 2 astarDefaultHeuristic).tail).map
            fun q => gW.edgeWeight q.1 q.2).sum)) :=
  ⟨gW_reachable, claim_C2_returned_walks gW 0 2 astarDefaultHeuristic gW_reachable⟩

/-- Counterexample to C3: on the graph `gC3` with the admissible (but
inconsistent) heuristic `hC3`, `astar` returns the walk 0,1,3 of weight 5,
although the walk 0,2,1,3 of weight 4 exists — admissibility alone does not
make the source's closed-set A* optimal. -/
theorem claim_C3_counterexample :
    Admissible gC3 hC3 3 ∧ gC3.Nonneg ∧ gC3.WF ∧ Reachable gC3 0 3 ∧
    astar gC3 0 3 hC3 = [0, 1, 3] ∧
    IsWalkFrom gC3 0 3 [0, 2, 1, 3] ∧
    walkWeight gC3 [0, 1, 3] = 5 ∧ walkWeight gC3 [0, 2, 1, 3] = 4 ∧
    ¬ (∀ W, IsWalkFrom gC3 0 3 W →
        walkWeight gC3 (astar gC3 0 3 hC3) ≤ walkWeight gC3 W) := by
  refine ⟨hC3_admissible, gC3_nonneg, gC3_wf, gC3_reachable, gC3_astar_run,
    gC3_walk_0213, gC3_weight_013, gC3_weight_0213, ?_⟩
  intro hopt
  have := hopt [0, 2, 1, 3] gC3_walk_0213
  rw [gC3_astar_run, gC3_weight_013, gC3_weight_0213] at this
  norm_num at this

/-- C3 amended: for every graph with non-negative weights and every
heuristic that is non-negative and consistent towards the goal (the
condition actually needed by a closed-set A*), `astar` returns a
minimal-weight walk on reachable pairs. -/
theorem claim_C3_astar_consistent_optimal (g : Graph) (s t : Node)
    (heuristic : Node → Node → ℚ) (hw : g.Nonneg) (hwf : g.WF)
    (hch : ConsistentHeuristic g heuristic t) (hr : Reachable g s t) :
    IsWalkFrom g s t (astar g s t heuristic) ∧
      ∀ W, IsWalkFrom g s t W →
        walkWeight g (astar g s t heuristic) ≤ walkWeight g W :=
  astar_optimal hw hwf hch hr

/-- Witness for the amended C3: the concrete scenario graph with the zero
heuristic (consistent, non-negative). -/
theorem claim_C3_witness :
    gW.Nonneg ∧ gW.WF ∧ ConsistentHeuristic gW (fun _ _ => 0) 2 ∧ Reachable gW 0 2 ∧
      (IsWalkFrom gW 0 2 (astar gW 0 2 (fun _ _ => 0)) ∧
        ∀ W, IsWalkFrom gW 0 2 W →
          walkWeight gW (astar gW 0 2 (fun _ _ => 0)) ≤ walkWeight gW W) :=
  ⟨gW_nonneg, gW_wf, gW_zero_consistent, gW_reachable,
    claim_C3_astar_consistent_optimal gW 0 2 (fun _ _ => 0) gW_nonneg gW_wf
      gW_zero_consistent gW_reachable⟩

/-- C4: on unreachable pairs both algorithms return the `NoPathFound`
signal — the empty list, never a partial path — and on start == end both
return the trivial one-node path `[start]`, with no self-loop required
(this holds for every graph). -/
theorem claim_C4_nopath_and_trivial (g : Graph) (s t : Node)
    (heuristic : Node → Node → ℚ) (hnr : ¬ Reachable g s t) :
    dijkstra g s t = [] ∧ astar g s t heuristic = [] ∧
    dijkstra g s s = [s] ∧ astar g s s heuristic = [s] := by
  refine ⟨?_, ?_, dijkstra_self g s, astar_self g s heuristic⟩
  · by_cases h : dijkstra g s t = []
    · exact h
    · exact absurd ⟨dijkstra g s t, ((dijkstra_cases g s t).2 h).1⟩ hnr
  · by_cases h : astar g s t heuristic = []
    · exact h
    · exact absurd ⟨astar g s t heuristic, ((astar_cases g s t heuristic).2 h).1⟩ hnr

/-- Witness for C4: the empty graph, start 0, end 1 (unreachable). -/
theorem claim_C4_witness :
    ¬ Reachable gEmpty 0 1 ∧
      (dijkstra gEmpty 0 1 = [] ∧ astar gEmpty 0 1 astarDefaultHeuristic = [] ∧
        dijkstra gEmpty 0 0 = [0] ∧ astar gEmpty 0 0 astarDefaultHeuristic = [0]) :=
  ⟨gEmpty_not_reachable,
    claim_C4_nopath_and_trivial gEmpty 0 1 astarDefaultHeuristic gEmpty_not_reachable⟩

/-- C5: for every order list and capacity C > 0, `assign_orders` produces
loads whose total weight is at most C, and every input order lands in
exactly one place: the loads' contents together with the over-capacity
orders are a permutation of the input, and the unassigned records are
exactly one `capacity` record per over-capacity order (the `vehicle_limit`
branch contributes nothing). -/
theorem claim_C5_assignment_partition (orders : List Order) (cap : ℚ)
    (hcap : 0 < cap) :
    (∀ l ∈ (assign_orders orders cap).1, loadWeight l ≤ cap) ∧
    ((assign_orders orders cap).1.flatten ++
        orders.filter fun o => decide (cap < o.weight)).Perm orders ∧
    (assign_orders orders cap).2 =
      (orders.filter fun o => decide (cap < o.weight)).map
        (fun o => ⟨o.id, UnassignedReason.capacity⟩) := by
  obtain ⟨a, b, c, d⟩ := assign_orders_spec orders cap (le_of_lt hcap)
  exact ⟨a, d, c⟩

/-- Witness for C5: the specification's concrete scenario — orders of
weight 25 (id 1) and 10 (id 2), capacity 20. -/
theorem claim_C5_witness :
    (0 : ℚ) < 20 ∧
      ((∀ l ∈ (assign_orders [⟨1, 1, 25, 1, 2⟩, ⟨2, 2, 10, 2, 1⟩] 20).1,
          loadWeight l ≤ 20) ∧
        ((assign_orders [⟨1, 1, 25, 1, 2⟩, ⟨2, 2, 10, 2, 1⟩] 20).1.flatten ++
            ([⟨1, 1, 25, 1, 2⟩, ⟨2, 2, 10, 2, 1⟩] : List Order).filter
              (fun o => decide ((20 : ℚ) < o.weight))).Perm
          [⟨1, 1, 25, 1, 2⟩, ⟨2, 2, 10, 2, 1⟩] ∧
        (assign_orders [⟨1, 1, 25, 1, 2⟩, ⟨2, 2, 10, 2, 1⟩] 20).2 =
          (([⟨1, 1, 25, 1, 2⟩, ⟨2, 2, 10, 2, 1⟩] : List Order).filter
            (fun o => decide ((20 : ℚ) < o.weight))).map
            (fun o => ⟨o.id, UnassignedReason.capacity⟩)) :=
  ⟨by norm_num,
    claim_C5_assignment_partition [⟨1, 1, 25, 1, 2⟩, ⟨2, 2, 10, 2, 1⟩] 20
      (by norm_num)⟩

/-- Counterexample to C6: with a path finder failing only on the leg 0→5,
the vehicle list [[order→5], [order→3]] yields no routes at all
(`computeAllRoutes` is `none`), even though the second load on its own plans
fine — the run does not continue for the other vehicle loads. -/
theorem claim_C6_counterexample :
    computeAllRoutes pfC6 [[oC6a], [oC6b]] = none ∧
    planVehicleRoute pfC6 [oC6b] = some [0, 3] ∧
    computeAllRoutes pfC6 [[oC6b]] = some [[0, 3]] := by
  refine ⟨?_, pfC6_ok, ?_⟩
  · unfold computeAllRoutes
    rw [List.mapM_cons, pfC6_fail]
    rfl
  · unfold computeAllRoutes
    rw [List.mapM_cons, pfC6_ok]
    rfl

/-- C6 amended: if any leg of any vehicle load's route yields `NoPathFound`,
that load's route computation fails at that leg (later destinations of the
load are not attempted), and the uncaught exception aborts the whole route
loop of `main`: no route list is produced for any vehicle. -/
theorem claim_C6_failure_aborts_run (pf : Node → Node → Option (List Node))
    (vehicles : List (List Order)) (v : List Order)
    (hv : v ∈ vehicles) (hfail : planVehicleRoute pf v = none) :
    computeAllRoutes pf vehicles = none :=
  computeAllRoutes_fail hv hfail

/-- Witness for the amended C6. -/
theorem claim_C6_witness :
    [oC6a] ∈ [[oC6a], [oC6b]] ∧ planVehicleRoute pfC6 [oC6a] = none ∧
      computeAllRoutes pfC6 [[oC6a], [oC6b]] = none :=
  ⟨oC6a_mem, pfC6_fail,
    claim_C6_failure_aborts_run pfC6 [[oC6a], [oC6b]] [oC6a] oC6a_mem pfC6_fail⟩

/-- Counterexample to C7: at peak hour 8, after `apply_dynamic_speed` the
input graph object does not hold its original edge attributes — the
baseline is mutated (speed 40 has become 24), not preserved. -/
theorem claim_C7_counterexample : (apply_dynamic_speed gDyn 8).2 ≠ gDyn := by
  intro h
  simp only [apply_dynamic_speed, transformEdgeData, if_pos isPeakHour_eight, gDyn,
    List.map_cons, List.map_nil, Option.getD_some] at h
  simp only [List.cons.injEq, Prod.mk.injEq, EdgeData.mk.injEq,
    Option.some.injEq, and_true, true_and] at h
  obtain ⟨hsp, -⟩ := h
  norm_num at hsp

/-- C7 amended: `apply_dynamic_speed` transforms every edge's attributes in
place and returns the very graph it mutated: the post-call state of the
input equals the returned graph, the returned graph is the edge-wise
transform of the input, and at a peak hour every edge with positive base
speed actually changes — the baseline is not preserved. -/
theorem claim_C7_mutates_in_place (graph : DynGraph) (hour : ℤ) :
    (apply_dynamic_speed graph hour).2 = (apply_dynamic_speed graph hour).1 ∧
    (apply_dynamic_speed graph hour).1 =
      graph.map (fun e => (e.1, e.2.1, transformEdgeData hour e.2.2)) ∧
    (isPeakHour hour → ∀ e ∈ graph, 0 < e.2.2.speed.getD 40 →
      transformEdgeData hour e.2.2 ≠ e.2.2) := by
  refine ⟨rfl, rfl, ?_⟩
  intro hpk e _ hpos hcon
  have hsp : (transformEdgeData hour e.2.2).speed =
      some (e.2.2.speed.getD 40 * (0.6 : ℚ)) := by
    simp [transformEdgeData, if_pos hpk]
  rw [hcon] at hsp
  cases hspeed : e.2.2.speed with
  | none => rw [hspeed] at hsp; cases hsp
  | some v =>
    rw [hspeed] at hsp
    rw [hspeed] at hpos
    simp only [Option.getD_some, Option.some.injEq] at hsp
    simp only [Option.getD_some] at hpos
    nlinarith [hsp, hpos]

/-- Witness for the amended C7: the one-edge graph at peak hour 8. -/
theorem claim_C7_witness :
    isPeakHour 8 ∧ (0 : ℚ) < ((⟨some 40, some 12, none⟩ : EdgeData)).speed.getD 40 ∧
      ((apply_dynamic_speed gDyn 8).2 = (apply_dynamic_speed gDyn 8).1 ∧
        (apply_dynamic_speed gDyn 8).1 =
          gDyn.map (fun e => (e.1, e.2.1, transformEdgeData 8 e.2.2)) ∧
        (isPeakHour 8 → ∀ e ∈ gDyn, 0 < e.2.2.speed.getD 40 →
          transformEdgeData 8 e.2.2 ≠ e.2.2)) :=
  ⟨isPeakHour_eight, by norm_num, claim_C7_mutates_in_place gDyn 8⟩

/-- Counterexample to C8: the default heuristic of `astar` is the constant
one function, not the constant zero function. -/
theorem claim_C8_counterexample : astarDefaultHeuristic 0 0 ≠ 0 := by
  norm_num [astarDefaultHeuristic]

/-- C8 amended: the default heuristic is the constant one function, and with
it `astar` degrades to `dijkstra` exactly: it returns the identical node
sequence on every graph and pair, hence in particular a path of identical
total weight. -/
theorem claim_C8_default_degrades_to_dijkstra (g : Graph) (s t : Node) :
    (∀ x y, astarDefaultHeuristic x y = 1) ∧
    astar g s t astarDefaultHeuristic = dijkstra g s t ∧
    walkWeight g (astar g s t astarDefaultHeuristic) =
      walkWeight g (dijkstra g s t) := by
  refine ⟨fun x y => rfl, astar_default_eq_dijkstra g s t, ?_⟩
  rw [astar_default_eq_dijkstra g s t]

/-- C9: for every graph and hour, the congestion transform gives every edge
the effective speed base × 0.6 inside the peak windows [7,9] and [17,19]
and the unchanged base speed otherwise, and sets the time-cost weight to
distance / effective speed; the whole returned graph is the edge-wise
transform. -/
theorem claim_C9_congestion_values (graph : DynGraph) (hour : ℤ)
    (hhour : 0 ≤ hour ∧ hour ≤ 23) (d : EdgeData)
    (hpos : 0 < d.speed.getD 40) :
    ((isPeakHour hour →
        (transformEdgeData hour d).speed = some (d.speed.getD 40 * (0.6 : ℚ)) ∧
        (transformEdgeData hour d).weight =
          some (d.distance.getD 1 / (d.speed.getD 40 * (0.6 : ℚ)))) ∧
      (¬ isPeakHour hour →
        (transformEdgeData hour d).speed = some (d.speed.getD 40) ∧
        (transformEdgeData hour d).weight =
          some (d.distance.getD 1 / d.speed.getD 40))) ∧
    (apply_dynamic_speed graph hour).1 =
      graph.map (fun e => (e.1, e.2.1, transformEdgeData hour e.2.2)) := by
  refine ⟨⟨?_, ?_⟩, rfl⟩
  · intro hpk
    constructor <;> simp [transformEdgeData, if_pos hpk]
  · intro hpk
    constructor <;> simp [transformEdgeData, if_neg hpk]

/-- Witness for C9: an edge of speed 40 and distance 12 at peak hour 8 —
effective speed 24, weight 12/24. -/
theorem claim_C9_witness :
    ((0 : ℤ) ≤ 8 ∧ (8 : ℤ) ≤ 23) ∧
      (0 : ℚ) < ((⟨some 40, some 12, none⟩ : EdgeData)).speed.getD 40 ∧
      (transformEdgeData 8 ⟨some 40, some 12, none⟩).speed = some 24 ∧
      (transformEdgeData 8 ⟨some 40, some 12, none⟩).weight = some (1/2) ∧
      (transformEdgeData 12 ⟨some 40, some 12, none⟩).speed = some 40 := by
  refine ⟨⟨by norm_num, by norm_num⟩, by norm_num, ?_, ?_, ?_⟩
  · have h := (claim_C9_congestion_values gDyn 8 (by norm_num)
      ⟨some 40, some 12, none⟩ (by norm_num)).1.1 isPeakHour_eight
    rw [h.1]
    norm_num
  · have h := (claim_C9_congestion_values gDyn 8 (by norm_num)
      ⟨some 40, some 12, none⟩ (by norm_num)).1.1 isPeakHour_eight
    rw [h.2]
    norm_num
  · have h12 : ¬ isPeakHour 12 := by norm_num [isPeakHour]
    have h := (claim_C9_congestion_values gDyn 12 (by norm_num)
      ⟨some 40, some 12, none⟩ (by norm_num)).1.2 h12
    rw [h.1]
    norm_num

/-- C10: every node sequence returned by `dijkstra` or by `astar` (any
heuristic) is simple — no node id occurs twice. -/
theorem claim_C10_simple_paths (g : Graph) (s t : Node)
    (heuristic : Node → Node → ℚ) :
    (dijkstra g s t).Nodup ∧ (astar g s t heuristic).Nodup := by
  constructor
  · by_cases h : dijkstra g s t = []
    · rw [h]; exact List.nodup_nil
    · exact ((dijkstra_cases g s t).2 h).2
  · by_cases h : astar g s t heuristic = []
    · rw [h]; exact List.nodup_nil
    · exact ((astar_cases g s t heuristic).2 h).2
